import Mathlib

/-!
Shallow embedding of the PyCacheLib TTL caching library
(CacheLib/TTL: DoublyLinkedList.py, MultiKeyUniTTLValueCache.py,
MultiKeyMultiTTLValueCache.py, ObjFactoryCache.py), together with proofs
about the embedded operations.

Conventions of the embedding:
- the wall clock (Python time.time_ns / time.time) is an explicit argument
  of every operation that reads it;
- node references of the doubly linked list are node ids into an explicit
  heap (a function from ids to node records);
- KVItem.Terminate calls are recorded in an explicit event list returned by
  the operations;
- Python exceptions are Except results.
-/

namespace PyCacheLib

/-- A node of the doubly linked list (class DoublyLinkedListNode):
optional prev/next references (node ids) and an optional payload
(Python initialises data to None). -/
structure DoublyLinkedListNode (α : Type) where
  prev : Option Nat
  next : Option Nat
  data : Option α
deriving DecidableEq

/-- The heap of list nodes, addressed by node id. -/
abbrev Heap (α : Type) := Nat → DoublyLinkedListNode α

/-- Node id of the sentinel head node. -/
def headId : Nat := 0

/-- Node id of the sentinel tail node. -/
def tailId : Nat := 1

/-- Overwrite one node of the heap. -/
def updNode (f : Heap α) (i : Nat) (n : DoublyLinkedListNode α) : Heap α :=
  fun j => if j = i then n else f j

/-- Assign node._prev. -/
def setPrev (f : Heap α) (i : Nat) (v : Option Nat) : Heap α :=
  updNode f i { f i with prev := v }

/-- Assign node._next. -/
def setNext (f : Heap α) (i : Nat) (v : Option Nat) : Heap α :=
  updNode f i { f i with next := v }

/-- Assign node.data. -/
def setData (f : Heap α) (i : Nat) (v : Option α) : Heap α :=
  updNode f i { f i with data := v }

/-- DoublyLinkedList._InsertNodeLeftLockHeld: insert node n to the left of
node ipos, performing the four pointer assignments of the source in order.
(The none fallback of the third assignment is unreachable in well-formed
states: ipos always has a prev node there.) -/
def insertNodeLeft (f : Heap α) (n ipos : Nat) : Heap α :=
  let f1 := setPrev f n ((f ipos).prev)
  let f2 := setNext f1 n (some ipos)
  let f3 := match (f2 ipos).prev with
    | some q => setNext f2 q (some n)
    | none => f2
  setPrev f3 ipos (some n)

/-- DoublyLinkedList._InsertNodeRightLockHeld: insert node n to the right of
node ipos. -/
def insertNodeRight (f : Heap α) (n ipos : Nat) : Heap α :=
  let f1 := setPrev f n (some ipos)
  let f2 := setNext f1 n ((f1 ipos).next)
  let f3 := match (f2 ipos).next with
    | some q => setPrev f2 q (some n)
    | none => f2
  setNext f3 ipos (some n)

/-- DoublyLinkedList._RemoveLockHeld: unlink node n by rewiring its
neighbours, then clear its own references. -/
def removeNode (f : Heap α) (n : Nat) : Heap α :=
  let f1 := match (f n).prev with
    | some q => setNext f q ((f n).next)
    | none => f
  let f2 := match (f1 n).next with
    | some q => setPrev f1 q ((f1 n).prev)
    | none => f1
  let f3 := setPrev f2 n none
  setNext f3 n none

/-- The doubly linked list: the node heap plus the id allocator
(ids below nextId are the ones allocated so far; 0 and 1 are the
sentinels). -/
structure DoublyLinkedList (α : Type) where
  nodes : Heap α
  nextId : Nat

/-- DoublyLinkedList.__init__: two sentinels linked to each other. -/
def DoublyLinkedList.init (α : Type) : DoublyLinkedList α where
  nodes := fun j =>
    if j = headId then { prev := none, next := some tailId, data := none }
    else if j = tailId then { prev := some headId, next := none, data := none }
    else { prev := none, next := none, data := none }
  nextId := 2

/-- The error raised by pop/peek operations on an empty list
(IndexError in the source). -/
inductive ContainerErr where
  | empty
deriving DecidableEq

/-- DoublyLinkedList.append: allocate a fresh node carrying the data and
insert it left of the tail sentinel; returns the node (its id) and the new
list. -/
def DoublyLinkedList.append (l : DoublyLinkedList α) (d : α) :
    Nat × DoublyLinkedList α :=
  let n := l.nextId
  let f0 := updNode l.nodes n { prev := none, next := none, data := some d }
  (n, { nodes := insertNodeLeft f0 n tailId, nextId := l.nextId + 1 })

/-- DoublyLinkedList.appendleft: allocate a fresh node and insert it right
of the head sentinel. -/
def DoublyLinkedList.appendleft (l : DoublyLinkedList α) (d : α) :
    Nat × DoublyLinkedList α :=
  let n := l.nextId
  let f0 := updNode l.nodes n { prev := none, next := none, data := some d }
  (n, { nodes := insertNodeRight f0 n headId, nextId := l.nextId + 1 })

/-- DoublyLinkedList._emptyLockHeld: head._next == tail. -/
def DoublyLinkedList.emptyLockHeld (l : DoublyLinkedList α) : Bool :=
  (l.nodes headId).next == some tailId

/-- DoublyLinkedList.empty. -/
def DoublyLinkedList.emptyq (l : DoublyLinkedList α) : Bool :=
  l.emptyLockHeld

/-- DoublyLinkedList.remove: unlink the given node. -/
def DoublyLinkedList.remove (l : DoublyLinkedList α) (n : Nat) :
    DoublyLinkedList α :=
  { l with nodes := removeNode l.nodes n }

/-- DoublyLinkedList.removeappend: unlink the node and re-insert it left of
the tail sentinel, in one locked step. -/
def DoublyLinkedList.removeappend (l : DoublyLinkedList α) (n : Nat) :
    DoublyLinkedList α :=
  { l with nodes := insertNodeLeft (removeNode l.nodes n) n tailId }

/-- DoublyLinkedList.removeappendleft. -/
def DoublyLinkedList.removeappendleft (l : DoublyLinkedList α) (n : Nat) :
    DoublyLinkedList α :=
  { l with nodes := insertNodeRight (removeNode l.nodes n) n headId }

/-- DoublyLinkedList.pop: on an empty list raise; otherwise unlink
tail._prev and return its data together with the new list.
(The inner none fallback is unreachable in well-formed states.) -/
def DoublyLinkedList.pop (l : DoublyLinkedList α) :
    Except ContainerErr (Option α) × DoublyLinkedList α :=
  if l.emptyLockHeld then (Except.error ContainerErr.empty, l)
  else
    match (l.nodes tailId).prev with
    | some n => (Except.ok ((l.nodes n).data), l.remove n)
    | none => (Except.error ContainerErr.empty, l)

/-- DoublyLinkedList.popleft: on an empty list raise; otherwise unlink
head._next and return its data together with the new list. -/
def DoublyLinkedList.popleft (l : DoublyLinkedList α) :
    Except ContainerErr (Option α) × DoublyLinkedList α :=
  if l.emptyLockHeld then (Except.error ContainerErr.empty, l)
  else
    match (l.nodes headId).next with
    | some n => (Except.ok ((l.nodes n).data), l.remove n)
    | none => (Except.error ContainerErr.empty, l)

/-- DoublyLinkedList.front: peek head._next.data, raising on an empty
list. -/
def DoublyLinkedList.front (l : DoublyLinkedList α) :
    Except ContainerErr (Option α) :=
  if l.emptyLockHeld then Except.error ContainerErr.empty
  else
    match (l.nodes headId).next with
    | some n => Except.ok ((l.nodes n).data)
    | none => Except.error ContainerErr.empty

/-- DoublyLinkedList.back: peek tail._prev.data, raising on an empty
list. -/
def DoublyLinkedList.back (l : DoublyLinkedList α) :
    Except ContainerErr (Option α) :=
  if l.emptyLockHeld then Except.error ContainerErr.empty
  else
    match (l.nodes tailId).prev with
    | some n => Except.ok ((l.nodes n).data)
    | none => Except.error ContainerErr.empty

/-- The forward walk of DoublyLinkedList._iterLockHeld: follow next
references from the given node until the tail sentinel, collecting data.
A fuel bound guarantees termination in arbitrary heaps; in well-formed
states the walk stops at the tail before exhausting the fuel. -/
def iterFwdAux (f : Heap α) : Nat → Option Nat → List (Option α)
  | 0, _ => []
  | _ + 1, none => []
  | fuel + 1, some cur =>
    if cur = tailId then []
    else (f cur).data :: iterFwdAux f fuel ((f cur).next)

/-- DoublyLinkedList.__iter__ (snapshot forward iteration). -/
def DoublyLinkedList.toListFwd (l : DoublyLinkedList α) : List (Option α) :=
  iterFwdAux l.nodes l.nextId ((l.nodes headId).next)

/-- The backward walk of DoublyLinkedList._reversedLockHeld: follow prev
references from the given node until the head sentinel. -/
def iterBwdAux (f : Heap α) : Nat → Option Nat → List (Option α)
  | 0, _ => []
  | _ + 1, none => []
  | fuel + 1, some cur =>
    if cur = headId then []
    else (f cur).data :: iterBwdAux f fuel ((f cur).prev)

/-- DoublyLinkedList.__reversed__ (snapshot backward iteration). -/
def DoublyLinkedList.toListBwd (l : DoublyLinkedList α) : List (Option α) :=
  iterBwdAux l.nodes l.nextId ((l.nodes tailId).prev)

/-- The counting walk of DoublyLinkedList.__len__. -/
def lenAux (f : Heap α) : Nat → Option Nat → Nat
  | 0, _ => 0
  | _ + 1, none => 0
  | fuel + 1, some cur =>
    if cur = tailId then 0 else 1 + lenAux f fuel ((f cur).next)

/-- DoublyLinkedList.__len__. -/
def DoublyLinkedList.len (l : DoublyLinkedList α) : Nat :=
  lenAux l.nodes l.nextId ((l.nodes headId).next)

/-- Two heap nodes are properly linked as neighbours. -/
def nodeRel (f : Heap α) (a b : Nat) : Prop :=
  (f a).next = some b ∧ (f b).prev = some a

instance (f : Heap α) : DecidableRel (nodeRel f) := fun a b =>
  decidable_of_iff ((f a).next = some b ∧ (f b).prev = some a) Iff.rfl

/-- The chain of node ids of a list whose live nodes are ids (in order):
sentinel head, the live nodes, sentinel tail. -/
def chainOf (ids : List Nat) : List Nat :=
  headId :: (ids ++ [tailId])

/-- Well-formedness of a doubly linked list whose live nodes are ids, in
front-to-back order: consecutive chain nodes are mutually linked, all chain
ids are distinct, and live ids are allocated non-sentinel ids. -/
def WF (l : DoublyLinkedList α) (ids : List Nat) : Prop :=
  List.Chain' (nodeRel l.nodes) (chainOf ids) ∧ (chainOf ids).Nodup ∧
    (∀ i ∈ ids, 2 ≤ i ∧ i < l.nextId) ∧ 2 ≤ l.nextId

/-- Executable check of the chain-linking condition. -/
def chainB (f : Heap α) : List Nat → Bool
  | [] => true
  | [_] => true
  | a :: b :: t =>
    ((f a).next == some b) && ((f b).prev == some a) && chainB f (b :: t)

instance (l : DoublyLinkedList α) (ids : List Nat) : Decidable (WF l ids) :=
  decidable_of_iff (chainB l.nodes (chainOf ids) = true ∧
    (chainOf ids).Nodup ∧ (∀ i ∈ ids, 2 ≤ i ∧ i < l.nextId) ∧
    2 ≤ l.nextId)
    (by
      have hiff : ∀ c : List Nat,
          chainB l.nodes c = true ↔ List.Chain' (nodeRel l.nodes) c := by
        intro c
        induction c with
        | nil => simp [chainB]
        | cons a t ih =>
          cases t with
          | nil => simp [chainB]
          | cons b t2 =>
            rw [List.chain'_cons, ← ih]
            simp [chainB, nodeRel, and_assoc]
      rw [hiff]
      exact Iff.rfl)

/-- The lists (together with their live-node sequences) reachable by the
public mutating operations from the initial empty list; the remove-family
constructors require the handle to be a live node, matching the documented
caller contract. -/
inductive ReachableIds : DoublyLinkedList α → List Nat → Prop where
  | init : ReachableIds (DoublyLinkedList.init α) []
  | append (l : DoublyLinkedList α) (ids : List Nat) (d : α) :
      ReachableIds l ids → ReachableIds (l.append d).2 (ids ++ [l.nextId])
  | appendleft (l : DoublyLinkedList α) (ids : List Nat) (d : α) :
      ReachableIds l ids → ReachableIds (l.appendleft d).2 (l.nextId :: ids)
  | pop (l : DoublyLinkedList α) (ids : List Nat) (r : Option α)
      (l' : DoublyLinkedList α) :
      ReachableIds l ids → l.pop = (Except.ok r, l') →
      ReachableIds l' ids.dropLast
  | popleft (l : DoublyLinkedList α) (ids : List Nat) (r : Option α)
      (l' : DoublyLinkedList α) :
      ReachableIds l ids → l.popleft = (Except.ok r, l') →
      ReachableIds l' ids.tail
  | remove (l : DoublyLinkedList α) (ids : List Nat) (i : Nat) :
      ReachableIds l ids → i ∈ ids → ReachableIds (l.remove i) (ids.erase i)
  | removeappend (l : DoublyLinkedList α) (ids : List Nat) (i : Nat) :
      ReachableIds l ids → i ∈ ids →
      ReachableIds (l.removeappend i) (ids.erase i ++ [i])
  | removeappendleft (l : DoublyLinkedList α) (ids : List Nat) (i : Nat) :
      ReachableIds l ids → i ∈ ids →
      ReachableIds (l.removeappendleft i) (i :: ids.erase i)

/-- The conjunction verified for claim C8: empty-list errors and non-empty
pop/peek behaviour of the doubly linked list. -/
def PopPeekSpec (l : DoublyLinkedList α) (ids : List Nat) : Prop :=
  (ids = [] →
    l.pop = (Except.error ContainerErr.empty, l) ∧
    l.popleft = (Except.error ContainerErr.empty, l) ∧
    l.front = Except.error ContainerErr.empty ∧
    l.back = Except.error ContainerErr.empty) ∧
  (∀ hne : ids ≠ [],
    ∃ vf vb lf lb,
      l.toListFwd.head? = some vf ∧
      l.toListFwd.getLast? = some vb ∧
      l.popleft = (Except.ok vf, lf) ∧ WF lf ids.tail ∧
        lf.toListFwd = l.toListFwd.tail ∧
      l.pop = (Except.ok vb, lb) ∧ WF lb ids.dropLast ∧
        lb.toListFwd = l.toListFwd.dropLast ∧
      l.front = Except.ok vf ∧
      l.back = Except.ok vb)

/-- The conjunction verified for claim C9: forward snapshot iteration is the
reverse of backward snapshot iteration and yields len() values. -/
def IterReverseSpec (l : DoublyLinkedList α) : Prop :=
  l.toListFwd = l.toListBwd.reverse ∧ l.toListFwd.length = l.len

/-- A concrete example list: one append on the initial list. -/
def dllEx1 : DoublyLinkedList Nat := ((DoublyLinkedList.init Nat).append 5).2

/-- A concrete example list: an append then an appendleft. -/
def dllEx2 : DoublyLinkedList Nat := (dllEx1.appendleft 7).2

/-- An item stored in the key-value caches (interface KeyValueItem):
an identity (used to record Terminate calls), its key set (GetKeys) and its
self-reported TTL in nanoseconds (GetTTLNanoSec, read only by the
per-item-TTL cache). -/
structure KVItem where
  id : Nat
  keys : List Nat
  ttlNanoSec : Nat
deriving DecidableEq

instance : Inhabited KVItem := ⟨⟨0, [], 0⟩⟩

/-- Python dict lookup: the value bound to k, if any. -/
def alistGet {β : Type} : List (Nat × β) → Nat → Option β
  | [], _ => none
  | p :: rest, k => if p.1 == k then some p.2 else alistGet rest k

/-- Python `k in dict`. -/
def alistContains {β : Type} (m : List (Nat × β)) (k : Nat) : Bool :=
  (alistGet m k).isSome

/-- Python dict assignment `m[k] = v`: replace in place if the key is
bound, else append a new binding (dicts preserve insertion order). -/
def alistPut {β : Type} : List (Nat × β) → Nat → β → List (Nat × β)
  | [], k, v => [(k, v)]
  | p :: rest, k, v =>
    if p.1 == k then (k, v) :: rest else p :: alistPut rest k v

/-- Python `dict.pop(k, None)`: drop the binding of k, if any. -/
def alistPop {β : Type} : List (Nat × β) → Nat → List (Nat × β)
  | [], _ => []
  | p :: rest, k => if p.1 == k then rest else p :: alistPop rest k

/-- MultiKeyUniTTLValueCache._RemoveKeysFromLUT: pop every key of the list
from the lookup table (a missing key is only logged). -/
def RemoveKeysFromLUT {β : Type} (m : List (Nat × β)) (keys : List Nat) :
    List (Nat × β) :=
  keys.foldl (fun acc k => alistPop acc k) m

/-- The error raised by Put on a key collision (KeyError in the source). -/
inductive CacheErr where
  | keyAlreadyExists
deriving DecidableEq

/-- MultiKeyUniTTLValueCache state: the uniform TTL in nanoseconds, the
expiry queue of (expiredTimeNS, item) payloads, and the key-to-node lookup
table. The node payload list [expiredTimeNS, item] of the source is the
pair carried as node data. -/
structure MultiKeyUniTTLValueCache where
  ttlNanoSec : Nat
  timeQueue : DoublyLinkedList (Nat × KVItem)
  keyValueMap : List (Nat × Nat)

/-- MultiKeyUniTTLValueCache.__init__ (the TTL already converted to
nanoseconds). -/
def MultiKeyUniTTLValueCache.mk0 (ttl : Nat) : MultiKeyUniTTLValueCache :=
  ⟨ttl, DoublyLinkedList.init _, []⟩

/-- The eviction loop of _CleanUpExpiredLockHeld: while the queue is
non-empty and the front expiry is strictly below now, pop the front node,
record the Terminate call on its item and drop the item keys from the
lookup table. Fuel bounds the walk; in well-formed states the fuel
(the allocator counter) always suffices. -/
def cleanLoopUni : Nat → DoublyLinkedList (Nat × KVItem) →
    List (Nat × Nat) → Nat →
    DoublyLinkedList (Nat × KVItem) × List (Nat × Nat) × List Nat
  | 0, q, m, _ => (q, m, [])
  | fuel + 1, q, m, now =>
    if q.emptyLockHeld then (q, m, [])
    else
      match q.front with
      | Except.ok (some (t, it)) =>
        if t < now then
          let q2 := (q.popleft).2
          let m2 := RemoveKeysFromLUT m it.keys
          let r := cleanLoopUni fuel q2 m2 now
          (r.1, r.2.1, it.id :: r.2.2)
        else (q, m, [])
      | _ => (q, m, [])

/-- MultiKeyUniTTLValueCache._CleanUpExpiredLockHeld at clock value now;
returns the new state and the ids of the terminated items, in order. -/
def MultiKeyUniTTLValueCache.CleanUpExpiredLockHeld
    (s : MultiKeyUniTTLValueCache) (now : Nat) :
    MultiKeyUniTTLValueCache × List Nat :=
  let r := cleanLoopUni s.timeQueue.nextId s.timeQueue s.keyValueMap now
  (⟨s.ttlNanoSec, r.1, r.2.1⟩, r.2.2)

/-- MultiKeyUniTTLValueCache.CleanUpExpired. -/
def MultiKeyUniTTLValueCache.CleanUpExpired (s : MultiKeyUniTTLValueCache)
    (now : Nat) : MultiKeyUniTTLValueCache × List Nat :=
  s.CleanUpExpiredLockHeld now

/-- MultiKeyUniTTLValueCache.Put at clock value now (the source reads
time_ns twice, after the lazy eviction; both reads are modelled by the same
now). Returns the Put result (the raised error, if any), the new state and
the terminated item ids. -/
def MultiKeyUniTTLValueCache.Put (s : MultiKeyUniTTLValueCache) (now : Nat)
    (item : KVItem) (raiseIfKeyExist : Bool) :
    Except CacheErr Unit × MultiKeyUniTTLValueCache × List Nat :=
  let r := s.CleanUpExpiredLockHeld now
  let s1 := r.1
  match item.keys.find? (fun k => alistContains s1.keyValueMap k) with
  | some _ =>
    if raiseIfKeyExist then (Except.error CacheErr.keyAlreadyExists, s1, r.2)
    else (Except.ok (), s1, r.2)
  | none =>
    let expiredTimeNS := now + s1.ttlNanoSec
    let ap := s1.timeQueue.append (expiredTimeNS, item)
    let m2 := item.keys.foldl (fun acc k => alistPut acc k ap.1)
      s1.keyValueMap
    (Except.ok (), ⟨s1.ttlNanoSec, ap.2, m2⟩, r.2)

/-- MultiKeyUniTTLValueCache.Get at clock value now: lazy eviction, then on
a hit update the found node stored expiry to now + TTL, move that node to
the queue tail and return the item; on a miss return none (the caller
default). Returns the result, the new state and the terminated ids. -/
def MultiKeyUniTTLValueCache.Get (s : MultiKeyUniTTLValueCache) (now : Nat)
    (k : Nat) :
    Option KVItem × MultiKeyUniTTLValueCache × List Nat :=
  let r := s.CleanUpExpiredLockHeld now
  let s1 := r.1
  let expiredTimeNS := now + s1.ttlNanoSec
  match alistGet s1.keyValueMap k with
  | none => (none, s1, r.2)
  | some nid =>
    match (s1.timeQueue.nodes nid).data with
    | some d =>
      let q2 : DoublyLinkedList (Nat × KVItem) :=
        { s1.timeQueue with
          nodes := setData s1.timeQueue.nodes nid (some (expiredTimeNS, d.2)) }
      let q3 := q2.removeappend nid
      (some d.2, ⟨s1.ttlNanoSec, q3, s1.keyValueMap⟩, r.2)
    | none => (none, s1, r.2)

/-- MultiKeyUniTTLValueCache.__len__ at clock value now (lazy eviction,
then the queue length). -/
def MultiKeyUniTTLValueCache.lenq (s : MultiKeyUniTTLValueCache)
    (now : Nat) : Nat × MultiKeyUniTTLValueCache × List Nat :=
  let r := s.CleanUpExpiredLockHeld now
  (r.1.timeQueue.len, r.1, r.2)

/-- MultiKeyUniTTLValueCache.NumOfKeys at clock value now. -/
def MultiKeyUniTTLValueCache.NumOfKeys (s : MultiKeyUniTTLValueCache)
    (now : Nat) : Nat × MultiKeyUniTTLValueCache × List Nat :=
  let r := s.CleanUpExpiredLockHeld now
  (r.1.keyValueMap.length, r.1, r.2)

/-- MultiKeyUniTTLValueCache.__contains__ at clock value now. -/
def MultiKeyUniTTLValueCache.containsq (s : MultiKeyUniTTLValueCache)
    (now : Nat) (k : Nat) : Bool × MultiKeyUniTTLValueCache × List Nat :=
  let r := s.CleanUpExpiredLockHeld now
  (alistContains r.1.keyValueMap k, r.1, r.2)

/-- The drain loop of MultiKeyUniTTLValueCache.Terminate: popleft until the
queue is empty, invalidating every popped item. -/
def termLoopUni : Nat → DoublyLinkedList (Nat × KVItem) →
    List (Nat × Nat) →
    DoublyLinkedList (Nat × KVItem) × List (Nat × Nat) × List Nat
  | 0, q, m => (q, m, [])
  | fuel + 1, q, m =>
    if q.emptyLockHeld then (q, m, [])
    else
      match q.popleft with
      | (Except.ok (some d), q2) =>
        let m2 := RemoveKeysFromLUT m d.2.keys
        let r := termLoopUni fuel q2 m2
        (r.1, r.2.1, d.2.id :: r.2.2)
      | (_, q2) => (q2, m, [])

/-- MultiKeyUniTTLValueCache.Terminate: drain the queue invalidating every
item, then clear the lookup table. -/
def MultiKeyUniTTLValueCache.Terminate (s : MultiKeyUniTTLValueCache) :
    MultiKeyUniTTLValueCache × List Nat :=
  let r := termLoopUni s.timeQueue.nextId s.timeQueue s.keyValueMap
  (⟨s.ttlNanoSec, r.1, []⟩, r.2.2)

/-- The expiry timestamp stored in queue node i. -/
def expiryAt (q : DoublyLinkedList (Nat × KVItem)) (i : Nat) : Nat :=
  (((q.nodes i).data).getD (0, default)).1

/-- The item stored in queue node i. -/
def itemAt (q : DoublyLinkedList (Nat × KVItem)) (i : Nat) : KVItem :=
  (((q.nodes i).data).getD (0, default)).2

/-- The invariant of the uniform-TTL cache at clock value t, with ids the
live queue nodes in front-to-back order: the queue is well-formed, every
live node carries a payload, stored expiries are nondecreasing along the
queue and bounded by t + TTL, lookup-table keys are distinct, every binding
points to a live node owning that key (soundness), and every key of every
live item is bound to its node (completeness). -/
def UniInv (s : MultiKeyUniTTLValueCache) (ids : List Nat) (t : Nat) :
    Prop :=
  WF s.timeQueue ids ∧
  (∀ i ∈ ids, ((s.timeQueue.nodes i).data).isSome = true) ∧
  List.Pairwise (fun i j => expiryAt s.timeQueue i ≤ expiryAt s.timeQueue j)
    ids ∧
  (∀ i ∈ ids, expiryAt s.timeQueue i ≤ t + s.ttlNanoSec) ∧
  (s.keyValueMap.map Prod.fst).Nodup ∧
  (∀ p ∈ s.keyValueMap, p.2 ∈ ids ∧ p.1 ∈ (itemAt s.timeQueue p.2).keys) ∧
  (∀ i ∈ ids, ∀ k ∈ (itemAt s.timeQueue i).keys,
    alistGet s.keyValueMap k = some i)

instance (s : MultiKeyUniTTLValueCache) (ids : List Nat) (t : Nat) :
    Decidable (UniInv s ids t) :=
  decidable_of_iff (WF s.timeQueue ids ∧
    (∀ i ∈ ids, ((s.timeQueue.nodes i).data).isSome = true) ∧
    List.Pairwise
      (fun i j => expiryAt s.timeQueue i ≤ expiryAt s.timeQueue j) ids ∧
    (∀ i ∈ ids, expiryAt s.timeQueue i ≤ t + s.ttlNanoSec) ∧
    (s.keyValueMap.map Prod.fst).Nodup ∧
    (∀ p ∈ s.keyValueMap, p.2 ∈ ids ∧ p.1 ∈ (itemAt s.timeQueue p.2).keys) ∧
    (∀ i ∈ ids, ∀ k ∈ (itemAt s.timeQueue i).keys,
      alistGet s.keyValueMap k = some i)) Iff.rfl

/-- A concrete uniform cache: TTL 5 ns, one item with key 10 put at time
0 (its queue node has id 2 and stored expiry 5). -/
def uniEx1 : MultiKeyUniTTLValueCache :=
  ((MultiKeyUniTTLValueCache.mk0 5).Put 0 ⟨1, [10], 0⟩ true).2.1

/-- MultiKeyMultiTTLValueCache state: the SortedDict time queue (an
association list with strictly increasing expiry keys) mapping absolute
expiry timestamp to item, and the key-to-item lookup table. -/
structure MultiKeyMultiTTLValueCache where
  timeQueue : List (Nat × KVItem)
  keyValueMap : List (Nat × KVItem)

/-- MultiKeyMultiTTLValueCache.__init__. -/
def MultiKeyMultiTTLValueCache.mk0 : MultiKeyMultiTTLValueCache := ⟨[], []⟩

/-- SortedDict assignment q[t] = v: insert keeping the keys strictly
increasing; when the key t is already present the stored value is
REPLACED (this is what loses an item on equal expiry timestamps). -/
def sdInsert : List (Nat × KVItem) → Nat → KVItem → List (Nat × KVItem)
  | [], t, v => [(t, v)]
  | p :: rest, t, v =>
    if t < p.1 then (t, v) :: p :: rest
    else if t = p.1 then (t, v) :: rest
    else p :: sdInsert rest t v

/-- The eviction loop of CleanUpExpiredLocked: while the queue is non-empty
and the smallest expiry key is strictly below now, popitem(0), record the
Terminate call and drop the item keys from the lookup table. -/
def cleanLoopMulti : List (Nat × KVItem) → List (Nat × KVItem) → Nat →
    List (Nat × KVItem) × List (Nat × KVItem) × List Nat
  | [], m, _ => ([], m, [])
  | p :: rest, m, now =>
    if p.1 < now then
      let m2 := RemoveKeysFromLUT m p.2.keys
      let r := cleanLoopMulti rest m2 now
      (r.1, r.2.1, p.2.id :: r.2.2)
    else (p :: rest, m, [])

/-- MultiKeyMultiTTLValueCache.CleanUpExpiredLocked at clock value now. -/
def MultiKeyMultiTTLValueCache.CleanUpExpiredLocked
    (s : MultiKeyMultiTTLValueCache) (now : Nat) :
    MultiKeyMultiTTLValueCache × List Nat :=
  let r := cleanLoopMulti s.timeQueue s.keyValueMap now
  (⟨r.1, r.2.1⟩, r.2.2)

/-- MultiKeyMultiTTLValueCache.Put at clock value now: lazy eviction, the
collision check over the item keys (raise or silently return), then bind
every key to the item and insert it at key now + item TTL in the
SortedDict. -/
def MultiKeyMultiTTLValueCache.Put (s : MultiKeyMultiTTLValueCache)
    (now : Nat) (item : KVItem) (raiseIfKeyExist : Bool) :
    Except CacheErr Unit × MultiKeyMultiTTLValueCache × List Nat :=
  let r := s.CleanUpExpiredLocked now
  let s1 := r.1
  match item.keys.find? (fun k => alistContains s1.keyValueMap k) with
  | some _ =>
    if raiseIfKeyExist then (Except.error CacheErr.keyAlreadyExists, s1,
      r.2)
    else (Except.ok (), s1, r.2)
  | none =>
    let expiredTimeNS := now + item.ttlNanoSec
    let m2 := item.keys.foldl (fun acc k => alistPut acc k item)
      s1.keyValueMap
    (Except.ok (), ⟨sdInsert s1.timeQueue expiredTimeNS item, m2⟩, r.2)

/-- MultiKeyMultiTTLValueCache.Get at clock value now: lazy eviction, then
a plain lookup (absence yields none, the caller default). -/
def MultiKeyMultiTTLValueCache.Get (s : MultiKeyMultiTTLValueCache)
    (now : Nat) (k : Nat) :
    Option KVItem × MultiKeyMultiTTLValueCache × List Nat :=
  let r := s.CleanUpExpiredLocked now
  (alistGet r.1.keyValueMap k, r.1, r.2)

/-- MultiKeyMultiTTLValueCache.__len__ at clock value now. -/
def MultiKeyMultiTTLValueCache.lenq (s : MultiKeyMultiTTLValueCache)
    (now : Nat) : Nat × MultiKeyMultiTTLValueCache × List Nat :=
  let r := s.CleanUpExpiredLocked now
  (r.1.timeQueue.length, r.1, r.2)

/-- MultiKeyMultiTTLValueCache.NumOfKeys at clock value now. -/
def MultiKeyMultiTTLValueCache.NumOfKeys (s : MultiKeyMultiTTLValueCache)
    (now : Nat) : Nat × MultiKeyMultiTTLValueCache × List Nat :=
  let r := s.CleanUpExpiredLocked now
  (r.1.keyValueMap.length, r.1, r.2)

/-- MultiKeyMultiTTLValueCache.__contains__ at clock value now. -/
def MultiKeyMultiTTLValueCache.containsq (s : MultiKeyMultiTTLValueCache)
    (now : Nat) (k : Nat) : Bool × MultiKeyMultiTTLValueCache × List Nat :=
  let r := s.CleanUpExpiredLocked now
  (alistContains r.1.keyValueMap k, r.1, r.2)

/-- The drain loop of MultiKeyMultiTTLValueCache.Terminate: invalidate
every item stored in the time queue, in key order. -/
def termLoopMulti : List (Nat × KVItem) → List (Nat × KVItem) →
    List (Nat × KVItem) × List Nat
  | [], m => (m, [])
  | p :: rest, m =>
    let m2 := RemoveKeysFromLUT m p.2.keys
    let r := termLoopMulti rest m2
    (r.1, p.2.id :: r.2)

/-- MultiKeyMultiTTLValueCache.Terminate: invalidate every item of the
time queue, then clear both structures. An item that sits in the lookup
table but not in the time queue is never terminated. -/
def MultiKeyMultiTTLValueCache.Terminate (s : MultiKeyMultiTTLValueCache) :
    MultiKeyMultiTTLValueCache × List Nat :=
  (⟨[], []⟩, (termLoopMulti s.timeQueue s.keyValueMap).2)

/-- ObjFactoryCache state: the TTL (the float seconds of the source
modelled as Nat time units), the idle store of (stamp, instance id) pairs
ordered oldest first (collections.deque, appended at the right), the
in-use table keyed by instance identity, and the factory modelled as a
fresh-id counter for constructed instances. -/
structure ObjFactoryCache where
  ttl : Nat
  idleObjs : List (Nat × Nat)
  inUseObjs : List (Nat × Nat)
  nextObjId : Nat

/-- ObjFactoryCache.__init__. -/
def ObjFactoryCache.mk0 (ttl : Nat) : ObjFactoryCache := ⟨ttl, [], [], 0⟩

/-- The eviction loop of ObjFactoryCache.CleanUpExpiredLocked: while the
idle store is non-empty and the OLDEST (leftmost) stamp plus TTL is
strictly below now, popleft and terminate that instance. -/
def cleanLoopPool : List (Nat × Nat) → Nat → Nat →
    List (Nat × Nat) × List Nat
  | [], _, _ => ([], [])
  | p :: rest, ttl, now =>
    if p.1 + ttl < now then
      let r := cleanLoopPool rest ttl now
      (r.1, p.2 :: r.2)
    else (p :: rest, [])

/-- ObjFactoryCache.CleanUpExpiredLocked at clock value now; returns the
new state and the terminated instance ids. -/
def ObjFactoryCache.CleanUpExpiredLocked (s : ObjFactoryCache)
    (now : Nat) : ObjFactoryCache × List Nat :=
  let r := cleanLoopPool s.idleObjs s.ttl now
  (⟨s.ttl, r.1, s.inUseObjs, s.nextObjId⟩, r.2)

/-- ObjFactoryCache.Get at clock value now: lazy eviction; then construct
a fresh instance via the stored factory recipe when the idle store is
empty, else hand out the instance popped from the NEWEST (right) end
(_PopIdleObjForUseLocked); optionally track it as in use. -/
def ObjFactoryCache.Get (s : ObjFactoryCache) (now : Nat)
    (trackInUse : Bool) : Nat × ObjFactoryCache × List Nat :=
  let r := s.CleanUpExpiredLocked now
  let s1 := r.1
  if s1.idleObjs.length = 0 then
    let obj := s1.nextObjId
    (obj, ⟨s1.ttl, s1.idleObjs,
      (if trackInUse then alistPut s1.inUseObjs obj obj else s1.inUseObjs),
      s1.nextObjId + 1⟩, r.2)
  else
    let obj := ((s1.idleObjs.getLast?).getD (0, 0)).2
    (obj, ⟨s1.ttl, s1.idleObjs.dropLast,
      (if trackInUse then alistPut s1.inUseObjs obj obj else s1.inUseObjs),
      s1.nextObjId⟩, r.2)

/-- ObjFactoryCache.Put at clock value now: lazy eviction, remove the
returned instance from the in-use table if present, and append it stamped
with now at the NEWEST (right) end of the idle store. -/
def ObjFactoryCache.Put (s : ObjFactoryCache) (now : Nat) (obj : Nat) :
    ObjFactoryCache × List Nat :=
  let r := s.CleanUpExpiredLocked now
  let s1 := r.1
  (⟨s1.ttl, s1.idleObjs ++ [(now, obj)], alistPop s1.inUseObjs obj,
    s1.nextObjId⟩, r.2)

/-- ObjFactoryCache.NumberOfIdle at clock value now. -/
def ObjFactoryCache.NumberOfIdle (s : ObjFactoryCache) (now : Nat) :
    Nat × ObjFactoryCache × List Nat :=
  let r := s.CleanUpExpiredLocked now
  (r.1.idleObjs.length, r.1, r.2)

/-- The object-pool invariant at clock value t: idle stamps are
nondecreasing left to right and never in the future. -/
def PoolInv (s : ObjFactoryCache) (t : Nat) : Prop :=
  List.Pairwise (fun p q => p.1 ≤ q.1) s.idleObjs ∧
  (∀ p ∈ s.idleObjs, p.1 ≤ t)

instance (s : ObjFactoryCache) (t : Nat) : Decidable (PoolInv s t) :=
  inferInstanceAs (Decidable
    (List.Pairwise (fun (p q : Nat × Nat) => p.1 ≤ q.1) s.idleObjs ∧
      (∀ p ∈ s.idleObjs, p.1 ≤ t)))

/-- Two items with disjoint key sets and equal TTL put at the same clock
value into the per-item-TTL cache: their absolute expiry timestamps are
equal (0 + 10), so the second SortedDict assignment overwrites the first
item queue entry while both stay in the lookup table. -/
def mtTie : MultiKeyMultiTTLValueCache :=
  (((MultiKeyMultiTTLValueCache.mk0.Put 0 ⟨1, [1], 10⟩ true).2.1).Put 0
    ⟨2, [2], 10⟩ true).2.1

/-- A per-item-TTL cache holding one item with key 1 (expiry 10). -/
def mtEx1 : MultiKeyMultiTTLValueCache :=
  (MultiKeyMultiTTLValueCache.mk0.Put 0 ⟨1, [1], 10⟩ true).2.1

/-- The conjunction verified for claim C10 (amended at the TTL boundary):
eviction removes exactly the idle instances whose stamp plus TTL is
strictly below now, always from the oldest end and terminating each;
NumberOfIdle no longer counts them; the reuse pop of Get hands out the
newest surviving idle instance without constructing; and Get constructs a
fresh instance via the factory exactly when the idle store is empty after
eviction. -/
def PoolSpecConcl (s : ObjFactoryCache) (now : Nat) : Prop :=
  (s.CleanUpExpiredLocked now).1.idleObjs =
    s.idleObjs.filter (fun p => ¬(p.1 + s.ttl < now)) ∧
  (s.CleanUpExpiredLocked now).2 =
    (s.idleObjs.filter (fun p => p.1 + s.ttl < now)).map (fun p => p.2) ∧
  (s.NumberOfIdle now).1 =
    (s.idleObjs.filter (fun p => ¬(p.1 + s.ttl < now))).length ∧
  (∀ b p, (s.CleanUpExpiredLocked now).1.idleObjs.getLast? = some p →
    (s.Get now b).1 = p.2 ∧
    (s.Get now b).2.1.nextObjId = s.nextObjId ∧
    (s.Get now b).2.1.idleObjs
      = (s.CleanUpExpiredLocked now).1.idleObjs.dropLast) ∧
  (∀ b, (s.CleanUpExpiredLocked now).1.idleObjs = [] →
    (s.Get now b).1 = s.nextObjId ∧
    (s.Get now b).2.1.nextObjId = s.nextObjId + 1)

/-- A concrete pool: TTL 10, one instance (id 7) idle since time 0. -/
def poolEx1 : ObjFactoryCache := ⟨10, [(0, 7)], [], 8⟩

-- ===== DLL THEOREMS =====

@[simp] theorem setPrev_prev (f : Heap α) (i : Nat) (v : Option Nat) (j : Nat) :
    ((setPrev f i v) j).prev = if j = i then v else (f j).prev := by
  simp only [setPrev, updNode]
  by_cases h : j = i <;> simp [h]

@[simp] theorem setPrev_next (f : Heap α) (i : Nat) (v : Option Nat) (j : Nat) :
    ((setPrev f i v) j).next = (f j).next := by
  simp only [setPrev, updNode]
  by_cases h : j = i <;> simp [h]

@[simp] theorem setPrev_data (f : Heap α) (i : Nat) (v : Option Nat) (j : Nat) :
    ((setPrev f i v) j).data = (f j).data := by
  simp only [setPrev, updNode]
  by_cases h : j = i <;> simp [h]

@[simp] theorem setNext_next (f : Heap α) (i : Nat) (v : Option Nat) (j : Nat) :
    ((setNext f i v) j).next = if j = i then v else (f j).next := by
  simp only [setNext, updNode]
  by_cases h : j = i <;> simp [h]

@[simp] theorem setNext_prev (f : Heap α) (i : Nat) (v : Option Nat) (j : Nat) :
    ((setNext f i v) j).prev = (f j).prev := by
  simp only [setNext, updNode]
  by_cases h : j = i <;> simp [h]

@[simp] theorem setNext_data (f : Heap α) (i : Nat) (v : Option Nat) (j : Nat) :
    ((setNext f i v) j).data = (f j).data := by
  simp only [setNext, updNode]
  by_cases h : j = i <;> simp [h]

@[simp] theorem setData_prev (f : Heap α) (i : Nat) (v : Option α) (j : Nat) :
    ((setData f i v) j).prev = (f j).prev := by
  simp only [setData, updNode]
  by_cases h : j = i <;> simp [h]

@[simp] theorem setData_next (f : Heap α) (i : Nat) (v : Option α) (j : Nat) :
    ((setData f i v) j).next = (f j).next := by
  simp only [setData, updNode]
  by_cases h : j = i <;> simp [h]

@[simp] theorem setData_data (f : Heap α) (i : Nat) (v : Option α) (j : Nat) :
    ((setData f i v) j).data = if j = i then v else (f j).data := by
  simp only [setData, updNode]
  by_cases h : j = i <;> simp [h]

theorem chainOf_nodup_iff {ids : List Nat} :
    (chainOf ids).Nodup ↔ ids.Nodup ∧ headId ∉ ids ∧ tailId ∉ ids := by
  constructor
  · intro h
    rw [chainOf, List.nodup_cons, List.nodup_append] at h
    refine ⟨h.2.1, ?_, ?_⟩
    · intro hm; exact h.1 (List.mem_append_left _ hm)
    · intro hm; exact h.2.2.2 hm (List.mem_singleton_self _)
  · intro ⟨h1, h2, h3⟩
    rw [chainOf, List.nodup_cons, List.nodup_append]
    refine ⟨?_, h1, List.nodup_singleton _, ?_⟩
    · intro hm
      rcases List.mem_append.mp hm with hm | hm
      · exact h2 hm
      · simp only [List.mem_singleton] at hm
        exact absurd hm (by simp [headId, tailId])
    · intro x hx hx1
      simp only [List.mem_singleton] at hx1
      subst hx1
      exact h3 hx

theorem chainOf_nodup_of {ids : List Nat} (h1 : ids.Nodup)
    (h2 : headId ∉ ids) (h3 : tailId ∉ ids) : (chainOf ids).Nodup :=
  chainOf_nodup_iff.mpr ⟨h1, h2, h3⟩

theorem WF.ids_nodup {l : DoublyLinkedList α} {ids : List Nat} (h : WF l ids) :
    ids.Nodup := (chainOf_nodup_iff.mp h.2.1).1

theorem WF.head_not_mem {l : DoublyLinkedList α} {ids : List Nat}
    (h : WF l ids) : headId ∉ ids := (chainOf_nodup_iff.mp h.2.1).2.1

theorem WF.tail_not_mem {l : DoublyLinkedList α} {ids : List Nat}
    (h : WF l ids) : tailId ∉ ids := (chainOf_nodup_iff.mp h.2.1).2.2

theorem WF.ids_length_lt {l : DoublyLinkedList α} {ids : List Nat}
    (h : WF l ids) : ids.length < l.nextId := by
  have hsub : ids.toFinset ⊆ Finset.Ico 2 l.nextId := by
    intro i hi
    rw [List.mem_toFinset] at hi
    exact Finset.mem_Ico.mpr (h.2.2.1 i hi)
  have hcard := Finset.card_le_card hsub
  rw [List.toFinset_card_of_nodup h.ids_nodup, Nat.card_Ico] at hcard
  have h2 := h.2.2.2
  omega

theorem mem_dropLast_ne_getLast {l : List Nat} (hnd : l.Nodup) (hne : l ≠ [])
    {x : Nat} (hx : x ∈ l.dropLast) : x ≠ l.getLast hne := by
  intro hcon
  conv at hnd => rw [← List.dropLast_append_getLast hne]
  rw [List.nodup_append] at hnd
  exact hnd.2.2 hx (by rw [hcon]; exact List.mem_singleton_self _)

theorem mem_tail_ne_head {l : List Nat} (hnd : l.Nodup) (hne : l ≠ [])
    {x : Nat} (hx : x ∈ l.tail) : x ≠ l.head hne := by
  intro hcon
  cases l with
  | nil => exact hne rfl
  | cons a l =>
    simp only [List.tail_cons] at hx
    simp only [List.head_cons] at hcon
    rw [List.nodup_cons] at hnd
    exact hnd.1 (hcon ▸ hx)

/-- Chain'-congruence for the linking relation: the chain only reads the
next reference of non-final chain nodes and the prev reference of non-initial
chain nodes. -/
theorem chain'_nodeRel_congr {f g : Heap α} :
    ∀ {c : List Nat},
      (∀ x ∈ c.dropLast, (g x).next = (f x).next) →
      (∀ x ∈ c.tail, (g x).prev = (f x).prev) →
      List.Chain' (nodeRel f) c → List.Chain' (nodeRel g) c
  | [], _, _, _ => List.chain'_nil
  | [a], _, _, _ => List.chain'_singleton a
  | a :: b :: c, hn, hp, hch => by
    rw [List.chain'_cons] at hch ⊢
    obtain ⟨⟨h1, h2⟩, hch'⟩ := hch
    have hdl : (a :: b :: c).dropLast = a :: (b :: c).dropLast := rfl
    refine ⟨⟨?_, ?_⟩, ?_⟩
    · rw [hn a (by rw [hdl]; exact List.mem_cons_self _ _)]; exact h1
    · rw [hp b (List.mem_cons_self _ _)]; exact h2
    · exact chain'_nodeRel_congr
        (fun x hx => hn x (by rw [hdl]; exact List.mem_cons_of_mem _ hx))
        (fun x hx => hp x (List.mem_cons_of_mem _ hx)) hch'

/-- Forward traversal of a chain segment ending at the tail sentinel yields
the data of the segment in order. -/
theorem iterFwdAux_eq (f : Heap α) :
    ∀ (c : List Nat) (fuel : Nat), c.length < fuel →
      List.Chain' (nodeRel f) (c ++ [tailId]) → tailId ∉ c →
      iterFwdAux f fuel ((c ++ [tailId]).head?) = c.map fun i => (f i).data
  | [], fuel, hf, _, _ => by
    match fuel, hf with
    | fuel + 1, _ => simp [iterFwdAux]
  | a :: c', fuel, hf, hch, hnt => by
    match fuel, hf with
    | fuel + 1, hf =>
      have ha : ¬(a = tailId) := fun h => hnt (h ▸ List.mem_cons_self a c')
      rw [List.cons_append, List.chain'_cons'] at hch
      obtain ⟨hrel, hch'⟩ := hch
      have hne : c' ++ [tailId] ≠ [] := by simp
      have hy : (c' ++ [tailId]).head? = some ((c' ++ [tailId]).head hne) :=
        List.head?_eq_head hne
      have hnext : (f a).next = some ((c' ++ [tailId]).head hne) :=
        (hrel _ (by rw [hy]; exact rfl)).1
      simp only [List.head?_cons, iterFwdAux, ha, if_false, List.map_cons]
      rw [hnext, ← hy,
        iterFwdAux_eq f c' fuel (by simpa using hf) hch'
          (fun h => hnt (List.mem_cons_of_mem _ h))]

/-- Backward traversal of a chain segment ending at the head sentinel yields
the data of the segment in order. -/
theorem iterBwdAux_eq (f : Heap α) :
    ∀ (c : List Nat) (fuel : Nat), c.length < fuel →
      List.Chain' (fun a b => nodeRel f b a) (c ++ [headId]) → headId ∉ c →
      iterBwdAux f fuel ((c ++ [headId]).head?) = c.map fun i => (f i).data
  | [], fuel, hf, _, _ => by
    match fuel, hf with
    | fuel + 1, _ => simp [iterBwdAux]
  | a :: c', fuel, hf, hch, hnt => by
    match fuel, hf with
    | fuel + 1, hf =>
      have ha : ¬(a = headId) := fun h => hnt (h ▸ List.mem_cons_self a c')
      rw [List.cons_append, List.chain'_cons'] at hch
      obtain ⟨hrel, hch'⟩ := hch
      have hne : c' ++ [headId] ≠ [] := by simp
      have hy : (c' ++ [headId]).head? = some ((c' ++ [headId]).head hne) :=
        List.head?_eq_head hne
      have hprev : (f a).prev = some ((c' ++ [headId]).head hne) :=
        (hrel _ (by rw [hy]; exact rfl)).2
      simp only [List.head?_cons, iterBwdAux, ha, if_false, List.map_cons]
      rw [hprev, ← hy,
        iterBwdAux_eq f c' fuel (by simpa using hf) hch'
          (fun h => hnt (List.mem_cons_of_mem _ h))]

theorem lenAux_eq (f : Heap α) :
    ∀ (fuel : Nat) (st : Option Nat),
      lenAux f fuel st = (iterFwdAux f fuel st).length
  | 0, _ => rfl
  | _ + 1, none => rfl
  | fuel + 1, some cur => by
    simp only [lenAux, iterFwdAux]
    by_cases h : cur = tailId <;> simp [h, lenAux_eq f fuel, Nat.add_comm]

/-- The snapshot forward iteration of a well-formed list yields the data of
its live nodes in order. -/
theorem toListFwd_eq {l : DoublyLinkedList α} {ids : List Nat} (h : WF l ids) :
    l.toListFwd = ids.map fun i => (l.nodes i).data := by
  have hch := h.1
  rw [chainOf, List.chain'_cons'] at hch
  obtain ⟨hrel, hch'⟩ := hch
  have hne : ids ++ [tailId] ≠ [] := by simp
  have hy : (ids ++ [tailId]).head? = some ((ids ++ [tailId]).head hne) :=
    List.head?_eq_head hne
  have hnext : (l.nodes headId).next = some ((ids ++ [tailId]).head hne) :=
    (hrel _ (by rw [hy]; exact rfl)).1
  rw [DoublyLinkedList.toListFwd, hnext, ← hy]
  exact iterFwdAux_eq l.nodes ids l.nextId h.ids_length_lt hch' h.tail_not_mem

/-- The snapshot backward iteration of a well-formed list yields the data of
its live nodes in back-to-front order. -/
theorem toListBwd_eq {l : DoublyLinkedList α} {ids : List Nat} (h : WF l ids) :
    l.toListBwd = ids.reverse.map fun i => (l.nodes i).data := by
  have hch : List.Chain' (fun a b => nodeRel l.nodes b a) ((chainOf ids).reverse) := by
    rw [List.chain'_reverse]
    exact h.1
  have hrev : (chainOf ids).reverse = tailId :: (ids.reverse ++ [headId]) := by
    rw [chainOf]
    simp
  rw [hrev, List.chain'_cons'] at hch
  obtain ⟨hrel, hch'⟩ := hch
  have hne : ids.reverse ++ [headId] ≠ [] := by simp
  have hy : (ids.reverse ++ [headId]).head? =
      some ((ids.reverse ++ [headId]).head hne) := List.head?_eq_head hne
  have hprev : (l.nodes tailId).prev =
      some ((ids.reverse ++ [headId]).head hne) :=
    (hrel _ (by rw [hy]; exact rfl)).2
  rw [DoublyLinkedList.toListBwd, hprev, ← hy]
  exact iterBwdAux_eq l.nodes ids.reverse l.nextId
    (by rw [List.length_reverse]; exact h.ids_length_lt) hch'
    (fun hm => h.head_not_mem (List.mem_reverse.mp hm))

/-- len of a well-formed list counts its live nodes. -/
theorem len_eq {l : DoublyLinkedList α} {ids : List Nat} (h : WF l ids) :
    l.len = ids.length := by
  rw [DoublyLinkedList.len, lenAux_eq]
  rw [show iterFwdAux l.nodes l.nextId ((l.nodes headId).next) = l.toListFwd from rfl]
  rw [toListFwd_eq h, List.length_map]

@[simp] theorem insertNodeLeft_data (f : Heap α) (n p j : Nat) :
    ((insertNodeLeft f n p) j).data = (f j).data := by
  simp only [insertNodeLeft]
  split <;> simp

@[simp] theorem insertNodeRight_data (f : Heap α) (n p j : Nat) :
    ((insertNodeRight f n p) j).data = (f j).data := by
  simp only [insertNodeRight]
  split <;> simp

@[simp] theorem removeNode_data (f : Heap α) (n j : Nat) :
    ((removeNode f n) j).data = (f j).data := by
  simp only [removeNode]
  split <;> split <;> simp

/-- Linking a fresh (or unlinked) allocated node n directly before the tail
sentinel extends a well-formed list at the back. -/
theorem WF_insertNodeLeft_tail {l : DoublyLinkedList α} {ids : List Nat}
    {n : Nat} (h : WF l ids) (h2 : 2 ≤ n) (hlt : n < l.nextId)
    (hmem : n ∉ ids) :
    WF { l with nodes := insertNodeLeft l.nodes n tailId } (ids ++ [n]) := by
  obtain ⟨hch, hnd, hb, h2le⟩ := h
  have hnodups := chainOf_nodup_iff.mp hnd
  have hndA : (headId :: ids).Nodup := by
    rw [List.nodup_cons]
    exact ⟨hnodups.2.1, hnodups.1⟩
  have hAne : headId :: ids ≠ [] := by simp
  set a := (headId :: ids).getLast hAne with ha
  have hamem : a ∈ headId :: ids := List.getLast_mem hAne
  have hch2 : List.Chain' (nodeRel l.nodes) ((headId :: ids) ++ [tailId]) := hch
  rw [List.chain'_append] at hch2
  obtain ⟨hchA, _, hlink⟩ := hch2
  have hgl : (headId :: ids).getLast? = some a :=
    List.getLast?_eq_getLast_of_ne_nil hAne
  have hrel_a_t : nodeRel l.nodes a tailId := by
    refine hlink a ?_ tailId ?_
    · rw [hgl]; rfl
    · rfl
  have hanext : (l.nodes a).next = some tailId := hrel_a_t.1
  have htprev : (l.nodes tailId).prev = some a := hrel_a_t.2
  have hn0 : n ≠ headId := by rw [headId]; omega
  have hn1 : n ≠ tailId := by rw [tailId]; omega
  have hnA : n ∉ headId :: ids := by
    intro hm
    rcases List.mem_cons.mp hm with hm | hm
    · exact hn0 hm
    · exact hmem hm
  have hna : n ≠ a := fun hcon => hnA (hcon ▸ hamem)
  have ht_notA : tailId ∉ headId :: ids := by
    intro hm
    rcases List.mem_cons.mp hm with hm | hm
    · exact absurd hm (by rw [headId, tailId]; omega)
    · exact hnodups.2.2 hm
  have hat : a ≠ tailId := fun hcon => ht_notA (hcon ▸ hamem)
  set g := insertNodeLeft l.nodes n tailId with hgdef
  have hg : g = setPrev (setNext (setNext (setPrev l.nodes n (some a)) n
      (some tailId)) a (some n)) tailId (some n) := by
    have hmatch : ((setNext (setPrev l.nodes n (some a)) n (some tailId))
        tailId).prev = some a := by
      rw [setNext_prev, setPrev_prev, if_neg (Ne.symm hn1), htprev]
    rw [hgdef]
    simp only [insertNodeLeft, htprev]
    rw [hmatch]
  have gnext : ∀ j, (g j).next = if j = a then some n
      else if j = n then some tailId else (l.nodes j).next := by
    intro j
    rw [hg]
    simp only [setPrev_next, setNext_next]
  have gprev : ∀ j, (g j).prev = if j = tailId then some n
      else if j = n then some a else (l.nodes j).prev := by
    intro j
    rw [hg]
    simp only [setPrev_prev, setNext_prev]
  refine ⟨?_, ?_, ?_, h2le⟩
  · have hshape : chainOf (ids ++ [n]) = (headId :: ids) ++ [n, tailId] := by
      rw [chainOf]
      simp
    rw [hshape, List.chain'_append]
    refine ⟨?_, ?_, ?_⟩
    · refine chain'_nodeRel_congr ?_ ?_ hchA
      · intro x hx
        have hxa : x ≠ a := mem_dropLast_ne_getLast hndA hAne hx
        have hxn : x ≠ n := fun hcon =>
          hnA (hcon ▸ List.dropLast_subset _ hx)
        rw [gnext, if_neg hxa, if_neg hxn]
      · intro x hx
        have hxt : x ≠ tailId := fun hcon => hnodups.2.2 (hcon ▸ hx)
        have hxn : x ≠ n := fun hcon => hmem (hcon ▸ hx)
        rw [gprev, if_neg hxt, if_neg hxn]
    · rw [List.chain'_cons]
      refine ⟨⟨?_, ?_⟩, List.chain'_singleton _⟩
      · rw [gnext, if_neg hna, if_pos rfl]
      · rw [gprev, if_pos rfl]
    · intro x hx y hy
      rw [hgl] at hx
      have hxa : x = a := by simpa using hx.symm
      have hyn : y = n := by simpa using hy.symm
      subst hxa; subst hyn
      constructor
      · rw [gnext, if_pos rfl]
      · rw [gprev, if_neg hn1, if_pos rfl]
  · refine chainOf_nodup_of ?_ ?_ ?_
    · rw [List.nodup_append]
      exact ⟨hnodups.1, List.nodup_singleton _,
        fun x hx hx1 => hmem ((List.mem_singleton.mp hx1) ▸ hx)⟩
    · intro hm
      rcases List.mem_append.mp hm with hm | hm
      · exact hnodups.2.1 hm
      · exact hn0 (List.mem_singleton.mp hm).symm
    · intro hm
      rcases List.mem_append.mp hm with hm | hm
      · exact hnodups.2.2 hm
      · exact hn1 (List.mem_singleton.mp hm).symm
  · intro i hi
    rcases List.mem_append.mp hi with hi | hi
    · exact hb i hi
    · rw [List.mem_singleton.mp hi]
      exact ⟨h2, hlt⟩

/-- Linking a fresh (or unlinked) allocated node n directly after the head
sentinel extends a well-formed list at the front. -/
theorem WF_insertNodeRight_head {l : DoublyLinkedList α} {ids : List Nat}
    {n : Nat} (h : WF l ids) (h2 : 2 ≤ n) (hlt : n < l.nextId)
    (hmem : n ∉ ids) :
    WF { l with nodes := insertNodeRight l.nodes n headId } (n :: ids) := by
  obtain ⟨hch, hnd, hb, h2le⟩ := h
  have hnodups := chainOf_nodup_iff.mp hnd
  have hSne : ids ++ [tailId] ≠ [] := by simp
  set b := (ids ++ [tailId]).head hSne with hbdef
  have hbmem : b ∈ ids ++ [tailId] := List.head_mem hSne
  have hndS : (ids ++ [tailId]).Nodup := by
    rw [List.nodup_append]
    exact ⟨hnodups.1, List.nodup_singleton _,
      fun x hx hx1 => hnodups.2.2 ((List.mem_singleton.mp hx1) ▸ hx)⟩
  have hhd : (ids ++ [tailId]).head? = some b := List.head?_eq_head hSne
  have hch2 := hch
  rw [chainOf, List.chain'_cons'] at hch2
  obtain ⟨hrel, hchS⟩ := hch2
  have hrel_h_b : nodeRel l.nodes headId b := hrel b (by rw [hhd]; rfl)
  have hhnext : (l.nodes headId).next = some b := hrel_h_b.1
  have hbprev : (l.nodes b).prev = some headId := hrel_h_b.2
  have hn0 : n ≠ headId := by rw [headId]; omega
  have hn1 : n ≠ tailId := by rw [tailId]; omega
  have hnS : n ∉ ids ++ [tailId] := by
    intro hm
    rcases List.mem_append.mp hm with hm | hm
    · exact hmem hm
    · exact hn1 (List.mem_singleton.mp hm)
  have hnb : n ≠ b := fun hcon => hnS (hcon ▸ hbmem)
  have hb0 : b ≠ headId := by
    intro hcon
    rcases List.mem_append.mp hbmem with hm | hm
    · exact hnodups.2.1 (hcon ▸ hm)
    · have := List.mem_singleton.mp hm
      rw [hcon] at this
      exact absurd this (by rw [headId, tailId]; omega)
  set g := insertNodeRight l.nodes n headId with hgdef
  have hg : g = setNext (setPrev (setNext (setPrev l.nodes n (some headId)) n
      (some b)) b (some n)) headId (some n) := by
    have hstep1 : ((setPrev l.nodes n (some headId)) headId).next = some b := by
      rw [setPrev_next, hhnext]
    have hmatch : ((setNext (setPrev l.nodes n (some headId)) n (some b))
        headId).next = some b := by
      rw [setNext_next, if_neg (Ne.symm hn0), setPrev_next, hhnext]
    rw [hgdef]
    simp only [insertNodeRight, hstep1]
    rw [hmatch]
  have gnext : ∀ j, (g j).next = if j = headId then some n
      else if j = n then some b else (l.nodes j).next := by
    intro j
    rw [hg]
    simp only [setNext_next, setPrev_next]
  have gprev : ∀ j, (g j).prev = if j = b then some n
      else if j = n then some headId else (l.nodes j).prev := by
    intro j
    rw [hg]
    simp only [setNext_prev, setPrev_prev]
  refine ⟨?_, ?_, ?_, h2le⟩
  · have hshape : chainOf (n :: ids) = [headId, n] ++ (ids ++ [tailId]) := by
      rw [chainOf]
      simp
    rw [hshape, List.chain'_append]
    refine ⟨?_, ?_, ?_⟩
    · rw [List.chain'_cons]
      refine ⟨⟨?_, ?_⟩, List.chain'_singleton _⟩
      · rw [gnext, if_pos rfl]
      · rw [gprev, if_neg (Ne.symm hnb).symm, if_pos rfl]
    · refine chain'_nodeRel_congr ?_ ?_ hchS
      · intro x hx
        have hxmem : x ∈ ids ++ [tailId] := List.dropLast_subset _ hx
        have hx0 : x ≠ headId := by
          intro hcon
          rcases List.mem_append.mp hxmem with hm | hm
          · exact hnodups.2.1 (hcon ▸ hm)
          · have := List.mem_singleton.mp hm
            rw [hcon] at this
            exact absurd this (by rw [headId, tailId]; omega)
        have hxn : x ≠ n := fun hcon => hnS (hcon ▸ hxmem)
        rw [gnext, if_neg hx0, if_neg hxn]
      · intro x hx
        have hxb : x ≠ b := mem_tail_ne_head hndS hSne hx
        have hxn : x ≠ n := fun hcon =>
          hnS (hcon ▸ List.mem_of_mem_tail hx)
        rw [gprev, if_neg hxb, if_neg hxn]
    · intro x hx y hy
      have hxn : x = n := by simpa using hx.symm
      rw [hhd] at hy
      have hyb : y = b := by simpa using hy.symm
      subst hxn; subst hyb
      constructor
      · rw [gnext, if_neg hn0, if_pos rfl]
      · rw [gprev, if_pos rfl]
  · refine chainOf_nodup_of ?_ ?_ ?_
    · rw [List.nodup_cons]
      exact ⟨hmem, hnodups.1⟩
    · intro hm
      rcases List.mem_cons.mp hm with hm | hm
      · exact hn0 hm.symm
      · exact hnodups.2.1 hm
    · intro hm
      rcases List.mem_cons.mp hm with hm | hm
      · exact hn1 hm.symm
      · exact hnodups.2.2 hm
  · intro i hi
    rcases List.mem_cons.mp hi with hi | hi
    · rw [hi]
      exact ⟨h2, hlt⟩
    · exact hb i hi

/-- Unlinking a live node of a well-formed list removes exactly that node
from the live sequence. -/
theorem WF_removeNode {l : DoublyLinkedList α} {ids : List Nat} {i : Nat}
    (h : WF l ids) (hi : i ∈ ids) :
    WF (l.remove i) (ids.erase i) := by
  obtain ⟨hch, hnd, hb, h2le⟩ := h
  have hnodups := chainOf_nodup_iff.mp hnd
  obtain ⟨l₁, l₂, rfl⟩ := List.append_of_mem hi
  have hndmid : (l₁ ++ i :: l₂).Nodup := hnodups.1
  have hil1 : i ∉ l₁ := by
    intro hm
    rw [List.nodup_append] at hndmid
    exact hndmid.2.2 hm (List.mem_cons_self _ _)
  have herase : (l₁ ++ i :: l₂).erase i = l₁ ++ l₂ := by
    rw [List.erase_append_right (i :: l₂) hil1]
    congr 1
    simp
  -- decompose the chain around node i
  have hPne : headId :: l₁ ≠ [] := by simp
  have hSne : l₂ ++ [tailId] ≠ [] := by simp
  set p := (headId :: l₁).getLast hPne with hpdef
  set s := (l₂ ++ [tailId]).head hSne with hsdef
  have hpmem : p ∈ headId :: l₁ := List.getLast_mem hPne
  have hsmem : s ∈ l₂ ++ [tailId] := List.head_mem hSne
  have hshape : chainOf (l₁ ++ i :: l₂) = (headId :: l₁) ++ i :: (l₂ ++ [tailId]) := by
    rw [chainOf]
    simp
  rw [hshape] at hch
  have hndall : ((headId :: l₁) ++ i :: (l₂ ++ [tailId])).Nodup := by
    rw [← hshape]
    exact hnd
  rw [List.chain'_append] at hch
  obtain ⟨hchP, hchIS, hlinkP⟩ := hch
  have hgl : (headId :: l₁).getLast? = some p :=
    List.getLast?_eq_getLast_of_ne_nil hPne
  have hrel_p_i : nodeRel l.nodes p i := hlinkP p (by rw [hgl]; rfl) i rfl
  rw [List.chain'_cons'] at hchIS
  obtain ⟨hreli, hchS⟩ := hchIS
  have hhd : (l₂ ++ [tailId]).head? = some s := List.head?_eq_head hSne
  have hrel_i_s : nodeRel l.nodes i s := hreli s (by rw [hhd]; rfl)
  have hpnext : (l.nodes p).next = some i := hrel_p_i.1
  have hiprev : (l.nodes i).prev = some p := hrel_p_i.2
  have hinext : (l.nodes i).next = some s := hrel_i_s.1
  have hsprev : (l.nodes s).prev = some i := hrel_i_s.2
  -- disequalities from nodup of the whole chain
  rw [List.nodup_append] at hndall
  obtain ⟨hndP, hndIS, hdisj⟩ := hndall
  rw [List.nodup_cons] at hndIS
  have hip : i ≠ p := fun hcon => hdisj (hcon ▸ hpmem) (List.mem_cons_self _ _)
  have his : i ≠ s := fun hcon => hndIS.1 (hcon ▸ hsmem)
  have hps : p ≠ s := fun hcon =>
    hdisj (hcon ▸ hpmem) (List.mem_cons_of_mem _ hsmem)
  set g := removeNode l.nodes i with hgdef
  have hg : g = setNext (setPrev (setPrev (setNext l.nodes p (some s)) s
      (some p)) i none) i none := by
    have h1n : ((setNext l.nodes p (some s)) i).next = some s := by
      rw [setNext_next]
      by_cases hcon : i = p
      · rw [if_pos hcon]
      · rw [if_neg hcon, hinext]
    have h1p : ((setNext l.nodes p (some s)) i).prev = some p := by
      rw [setNext_prev, hiprev]
    rw [hgdef]
    simp only [removeNode, hiprev, hinext]
    all_goals rw [h1n, h1p]
  have gnext : ∀ j, (g j).next = if j = i then none
      else if j = p then some s else (l.nodes j).next := by
    intro j
    rw [hg]
    simp only [setNext_next, setPrev_next]
  have gprev : ∀ j, (g j).prev = if j = i then none
      else if j = s then some p else (l.nodes j).prev := by
    intro j
    rw [hg]
    simp only [setNext_prev, setPrev_prev]
  have hrem : l.remove i = { nodes := g, nextId := l.nextId } := rfl
  rw [herase, hrem]
  refine ⟨?_, ?_, ?_, h2le⟩
  · have hshape2 : chainOf (l₁ ++ l₂) = (headId :: l₁) ++ (l₂ ++ [tailId]) := by
      rw [chainOf]
      simp
    rw [hshape2, List.chain'_append]
    refine ⟨?_, ?_, ?_⟩
    · refine chain'_nodeRel_congr ?_ ?_ hchP
      · intro x hx
        have hxp : x ≠ p := mem_dropLast_ne_getLast hndP hPne hx
        have hxi : x ≠ i := fun hcon =>
          hdisj (hcon ▸ List.dropLast_subset _ hx) (List.mem_cons_self _ _)
        rw [gnext, if_neg hxi, if_neg hxp]
      · intro x hx
        have hxmem : x ∈ headId :: l₁ := List.mem_of_mem_tail hx
        have hxi : x ≠ i := fun hcon =>
          hdisj (hcon ▸ hxmem) (List.mem_cons_self _ _)
        have hxs : x ≠ s := fun hcon =>
          hdisj (hcon ▸ hxmem) (List.mem_cons_of_mem _ hsmem)
        rw [gprev, if_neg hxi, if_neg hxs]
    · refine chain'_nodeRel_congr ?_ ?_ hchS
      · intro x hx
        have hxmem : x ∈ l₂ ++ [tailId] := List.dropLast_subset _ hx
        have hxi : x ≠ i := fun hcon => hndIS.1 (hcon ▸ hxmem)
        have hxp : x ≠ p := fun hcon =>
          hdisj (hcon ▸ hpmem) (List.mem_cons_of_mem _ hxmem)
        rw [gnext, if_neg hxi, if_neg (by exact fun hcon => hxp hcon)]
      · intro x hx
        have hxs : x ≠ s := mem_tail_ne_head hndIS.2 hSne hx
        have hxi : x ≠ i := fun hcon =>
          hndIS.1 (hcon ▸ List.mem_of_mem_tail hx)
        rw [gprev, if_neg hxi, if_neg hxs]
    · intro x hx y hy
      rw [hgl] at hx
      have hxp : x = p := by simpa using hx.symm
      rw [hhd] at hy
      have hys : y = s := by simpa using hy.symm
      subst hxp; subst hys
      constructor
      · rw [gnext, if_neg (Ne.symm hip), if_pos rfl]
      · rw [gprev, if_neg (Ne.symm his), if_pos rfl]
  · refine chainOf_nodup_of ?_ ?_ ?_
    · exact ((List.sublist_cons_self i l₂).append_left l₁).nodup hndmid
    · intro hm
      exact hnodups.2.1 (((List.sublist_cons_self i l₂).append_left l₁).mem hm)
    · intro hm
      exact hnodups.2.2 (((List.sublist_cons_self i l₂).append_left l₁).mem hm)
  · intro j hj
    exact hb j (((List.sublist_cons_self i l₂).append_left l₁).mem hj)

theorem WF.head_next {l : DoublyLinkedList α} {ids : List Nat} (h : WF l ids) :
    (l.nodes headId).next = some ((ids ++ [tailId]).head (by simp)) := by
  have hch := h.1
  rw [chainOf, List.chain'_cons'] at hch
  exact (hch.1 _ (by rw [List.head?_eq_head (by simp)]; rfl)).1

theorem WF.tail_prev {l : DoublyLinkedList α} {ids : List Nat} (h : WF l ids) :
    (l.nodes tailId).prev = some ((headId :: ids).getLast (by simp)) := by
  have hch : List.Chain' (nodeRel l.nodes) ((headId :: ids) ++ [tailId]) := h.1
  rw [List.chain'_append] at hch
  refine (hch.2.2 _ ?_ tailId rfl).2
  rw [List.getLast?_eq_getLast_of_ne_nil (by simp)]
  rfl

/-- The emptiness check of a well-formed list decides whether it has live
nodes. -/
theorem emptyLockHeld_iff {l : DoublyLinkedList α} {ids : List Nat}
    (h : WF l ids) : l.emptyLockHeld = true ↔ ids = [] := by
  have hnext := h.head_next
  cases ids with
  | nil =>
    simp only [List.nil_append, List.head_cons] at hnext
    simp [DoublyLinkedList.emptyLockHeld, hnext]
  | cons a rest =>
    have hhd : ((a :: rest) ++ [tailId]).head (by simp) = a := rfl
    rw [hhd] at hnext
    have ha1 : a ≠ tailId := fun hcon =>
      h.tail_not_mem (hcon ▸ List.mem_cons_self a rest)
    simp [DoublyLinkedList.emptyLockHeld, hnext, ha1]

theorem nodup_erase_getLast {ids : List Nat} (hnd : ids.Nodup)
    (hne : ids ≠ []) : ids.erase (ids.getLast hne) = ids.dropLast := by
  set a := ids.getLast hne with ha
  have h1 : ids.dropLast ++ [a] = ids := List.dropLast_append_getLast hne
  have hnm : a ∉ ids.dropLast := fun hm =>
    (mem_dropLast_ne_getLast hnd hne hm) ha
  calc ids.erase a = (ids.dropLast ++ [a]).erase a := by rw [h1]
    _ = ids.dropLast ++ ([a].erase a) := List.erase_append_right _ hnm
    _ = ids.dropLast := by simp

theorem getLast_cons_of_ne_nil {a : Nat} {l : List Nat} (h : l ≠ []) :
    (a :: l).getLast (by simp) = l.getLast h := by
  cases l with
  | nil => exact absurd rfl h
  | cons b t => exact List.getLast_cons h

/-- pop of a well-formed list: error exactly on the empty list (leaving it
unchanged), else unlink the last live node and return its data. -/
theorem pop_spec {l : DoublyLinkedList α} {ids : List Nat} (h : WF l ids) :
    (ids = [] → l.pop = (Except.error ContainerErr.empty, l)) ∧
    (∀ hne : ids ≠ [],
      l.pop = (Except.ok ((l.nodes (ids.getLast hne)).data),
        l.remove (ids.getLast hne))) := by
  constructor
  · intro hnil
    have hemp : l.emptyLockHeld = true := (emptyLockHeld_iff h).mpr hnil
    rw [DoublyLinkedList.pop, if_pos hemp]
  · intro hne
    have hemp : ¬(l.emptyLockHeld = true) := fun hcon =>
      hne ((emptyLockHeld_iff h).mp hcon)
    have hprev := h.tail_prev
    have hgl : (headId :: ids).getLast (by simp) = ids.getLast hne :=
      getLast_cons_of_ne_nil hne
    rw [hgl] at hprev
    rw [DoublyLinkedList.pop, if_neg hemp, hprev]

/-- popleft of a well-formed list: error exactly on the empty list (leaving
it unchanged), else unlink the first live node and return its data. -/
theorem popleft_spec {l : DoublyLinkedList α} {ids : List Nat} (h : WF l ids) :
    (ids = [] → l.popleft = (Except.error ContainerErr.empty, l)) ∧
    (∀ hne : ids ≠ [],
      l.popleft = (Except.ok ((l.nodes (ids.head hne)).data),
        l.remove (ids.head hne))) := by
  constructor
  · intro hnil
    have hemp : l.emptyLockHeld = true := (emptyLockHeld_iff h).mpr hnil
    rw [DoublyLinkedList.popleft, if_pos hemp]
  · intro hne
    have hemp : ¬(l.emptyLockHeld = true) := fun hcon =>
      hne ((emptyLockHeld_iff h).mp hcon)
    have hnext := h.head_next
    have hhd : (ids ++ [tailId]).head (by simp) = ids.head hne := by
      cases ids with
      | nil => exact absurd rfl hne
      | cons a rest => rfl
    rw [hhd] at hnext
    rw [DoublyLinkedList.popleft, if_neg hemp, hnext]

/-- front of a well-formed list: error exactly on the empty list, else the
data of the first live node, without mutation. -/
theorem front_spec {l : DoublyLinkedList α} {ids : List Nat} (h : WF l ids) :
    (ids = [] → l.front = Except.error ContainerErr.empty) ∧
    (∀ hne : ids ≠ [],
      l.front = Except.ok ((l.nodes (ids.head hne)).data)) := by
  constructor
  · intro hnil
    have hemp : l.emptyLockHeld = true := (emptyLockHeld_iff h).mpr hnil
    rw [DoublyLinkedList.front, if_pos hemp]
  · intro hne
    have hemp : ¬(l.emptyLockHeld = true) := fun hcon =>
      hne ((emptyLockHeld_iff h).mp hcon)
    have hnext := h.head_next
    have hhd : (ids ++ [tailId]).head (by simp) = ids.head hne := by
      cases ids with
      | nil => exact absurd rfl hne
      | cons a rest => rfl
    rw [hhd] at hnext
    rw [DoublyLinkedList.front, if_neg hemp, hnext]

/-- back of a well-formed list: error exactly on the empty list, else the
data of the last live node, without mutation. -/
theorem back_spec {l : DoublyLinkedList α} {ids : List Nat} (h : WF l ids) :
    (ids = [] → l.back = Except.error ContainerErr.empty) ∧
    (∀ hne : ids ≠ [],
      l.back = Except.ok ((l.nodes (ids.getLast hne)).data)) := by
  constructor
  · intro hnil
    have hemp : l.emptyLockHeld = true := (emptyLockHeld_iff h).mpr hnil
    rw [DoublyLinkedList.back, if_pos hemp]
  · intro hne
    have hemp : ¬(l.emptyLockHeld = true) := fun hcon =>
      hne ((emptyLockHeld_iff h).mp hcon)
    have hprev := h.tail_prev
    have hgl : (headId :: ids).getLast (by simp) = ids.getLast hne :=
      getLast_cons_of_ne_nil hne
    rw [hgl] at hprev
    rw [DoublyLinkedList.back, if_neg hemp, hprev]

/-- append preserves well-formedness, adding the fresh node at the back. -/
theorem WF_append {l : DoublyLinkedList α} {ids : List Nat} (h : WF l ids)
    (d : α) : WF (l.append d).2 (ids ++ [l.nextId]) := by
  obtain ⟨hch, hnd, hb, h2le⟩ := h
  have hfresh : ∀ x ∈ chainOf ids, x ≠ l.nextId := by
    intro x hx
    rw [chainOf] at hx
    rcases List.mem_cons.mp hx with hx | hx
    · rw [hx, headId]; omega
    · rcases List.mem_append.mp hx with hx | hx
      · exact fun hcon => absurd (hb x hx).2 (by omega)
      · rw [List.mem_singleton.mp hx, tailId]; omega
  have h0 : WF ⟨updNode l.nodes l.nextId ⟨none, none, some d⟩,
      l.nextId + 1⟩ ids := by
    refine ⟨?_, hnd, ?_, show 2 ≤ l.nextId + 1 by omega⟩
    · refine chain'_nodeRel_congr ?_ ?_ hch
      · intro x hx
        have hxne : x ≠ l.nextId := hfresh x (List.dropLast_subset _ hx)
        simp [updNode, hxne]
      · intro x hx
        have hxne : x ≠ l.nextId := hfresh x (List.mem_of_mem_tail hx)
        simp [updNode, hxne]
    · intro i hi
      have := hb i hi
      show 2 ≤ i ∧ i < l.nextId + 1
      omega
  have hres := WF_insertNodeLeft_tail h0 h2le
    (show l.nextId < l.nextId + 1 by omega)
    (fun hm => absurd (hb _ hm).2 (by omega))
  exact hres

/-- appendleft preserves well-formedness, adding the fresh node at the
front. -/
theorem WF_appendleft {l : DoublyLinkedList α} {ids : List Nat}
    (h : WF l ids) (d : α) : WF (l.appendleft d).2 (l.nextId :: ids) := by
  obtain ⟨hch, hnd, hb, h2le⟩ := h
  have h0 : WF ⟨updNode l.nodes l.nextId ⟨none, none, some d⟩,
      l.nextId + 1⟩ ids := by
    refine ⟨?_, hnd, ?_, show 2 ≤ l.nextId + 1 by omega⟩
    · have hfresh : ∀ x ∈ chainOf ids, x ≠ l.nextId := by
        intro x hx
        rw [chainOf] at hx
        rcases List.mem_cons.mp hx with hx | hx
        · rw [hx, headId]; omega
        · rcases List.mem_append.mp hx with hx | hx
          · exact fun hcon => absurd (hb x hx).2 (by omega)
          · rw [List.mem_singleton.mp hx, tailId]; omega
      refine chain'_nodeRel_congr ?_ ?_ hch
      · intro x hx
        have hxne : x ≠ l.nextId := hfresh x (List.dropLast_subset _ hx)
        simp [updNode, hxne]
      · intro x hx
        have hxne : x ≠ l.nextId := hfresh x (List.mem_of_mem_tail hx)
        simp [updNode, hxne]
    · intro i hi
      have := hb i hi
      show 2 ≤ i ∧ i < l.nextId + 1
      omega
  exact WF_insertNodeRight_head h0 h2le
    (show l.nextId < l.nextId + 1 by omega)
    (fun hm => absurd (hb _ hm).2 (by omega))

/-- removeappend moves a live node to the back. -/
theorem WF_removeappend {l : DoublyLinkedList α} {ids : List Nat} {i : Nat}
    (h : WF l ids) (hi : i ∈ ids) :
    WF (l.removeappend i) (ids.erase i ++ [i]) := by
  have hrm := WF_removeNode h hi
  have hbi := h.2.2.1 i hi
  have hni : i ∉ ids.erase i := fun hm =>
    absurd ((List.Nodup.mem_erase_iff h.ids_nodup).mp hm).1 (by simp)
  exact WF_insertNodeLeft_tail hrm hbi.1 hbi.2 hni

/-- removeappendleft moves a live node to the front. -/
theorem WF_removeappendleft {l : DoublyLinkedList α} {ids : List Nat}
    {i : Nat} (h : WF l ids) (hi : i ∈ ids) :
    WF (l.removeappendleft i) (i :: ids.erase i) := by
  have hrm := WF_removeNode h hi
  have hbi := h.2.2.1 i hi
  have hni : i ∉ ids.erase i := fun hm =>
    absurd ((List.Nodup.mem_erase_iff h.ids_nodup).mp hm).1 (by simp)
  exact WF_insertNodeRight_head hrm hbi.1 hbi.2 hni

/-- The initial (empty) list is well-formed. -/
theorem WF_init (α : Type) : WF (DoublyLinkedList.init α) [] := by
  refine ⟨?_, ?_, ?_, le_refl 2⟩
  · rw [chainOf, List.nil_append, List.chain'_cons]
    refine ⟨⟨?_, ?_⟩, List.chain'_singleton _⟩
    · simp [DoublyLinkedList.init, headId, tailId]
    · simp [DoublyLinkedList.init, headId, tailId]
  · rw [chainOf]
    simp [headId, tailId]
  · intro i hi
    exact absurd hi (List.not_mem_nil i)

/-- Every reachable list is well-formed w.r.t. its live-node sequence. -/
theorem ReachableIds.toWF {l : DoublyLinkedList α} {ids : List Nat}
    (h : ReachableIds l ids) : WF l ids := by
  induction h with
  | init => exact WF_init α
  | append l ids d _ ih => exact WF_append ih d
  | appendleft l ids d _ ih => exact WF_appendleft ih d
  | pop l ids r l' _ hpop ih =>
    by_cases hnil : ids = []
    · rw [(pop_spec ih).1 hnil] at hpop
      exact absurd (congrArg Prod.fst hpop) (by simp)
    · rw [(pop_spec ih).2 hnil] at hpop
      have hl' : l' = l.remove (ids.getLast hnil) :=
        (congrArg Prod.snd hpop).symm
      rw [hl']
      have := WF_removeNode ih (List.getLast_mem hnil)
      rwa [nodup_erase_getLast ih.ids_nodup hnil] at this
  | popleft l ids r l' _ hpop ih =>
    cases ids with
    | nil =>
      rw [(popleft_spec ih).1 rfl] at hpop
      exact absurd (congrArg Prod.fst hpop) (by simp)
    | cons a rest =>
      have hne : a :: rest ≠ [] := by simp
      rw [(popleft_spec ih).2 hne] at hpop
      have hl' : l' = l.remove a := (congrArg Prod.snd hpop).symm
      rw [hl']
      have := WF_removeNode ih (List.mem_cons_self a rest)
      rwa [show (a :: rest).erase a = rest by simp] at this
  | remove l ids i _ hi ih => exact WF_removeNode ih hi
  | removeappend l ids i _ hi ih => exact WF_removeappend ih hi
  | removeappendleft l ids i _ hi ih => exact WF_removeappendleft ih hi

theorem erase_head_eq_tail {ids : List Nat} (hne : ids ≠ []) :
    ids.erase (ids.head hne) = ids.tail := by
  cases ids with
  | nil => exact absurd rfl hne
  | cons a t => simp

theorem WF_remove_head {l : DoublyLinkedList α} {ids : List Nat}
    (h : WF l ids) (hne : ids ≠ []) :
    WF (l.remove (ids.head hne)) ids.tail := by
  have h2 := WF_removeNode h (List.head_mem hne)
  rwa [erase_head_eq_tail hne] at h2

theorem WF_remove_getLast {l : DoublyLinkedList α} {ids : List Nat}
    (h : WF l ids) (hne : ids ≠ []) :
    WF (l.remove (ids.getLast hne)) ids.dropLast := by
  have h2 := WF_removeNode h (List.getLast_mem hne)
  rwa [nodup_erase_getLast h.ids_nodup hne] at h2

theorem remove_toListFwd_tail {l : DoublyLinkedList α} {ids : List Nat}
    (h : WF l ids) (hne : ids ≠ []) :
    (l.remove (ids.head hne)).toListFwd = l.toListFwd.tail := by
  rw [toListFwd_eq (WF_remove_head h hne), toListFwd_eq h, ← List.map_tail]
  simp only [show ∀ j, ((l.remove (ids.head hne)).nodes j).data
    = (l.nodes j).data from fun j => removeNode_data l.nodes _ j]

theorem remove_toListFwd_dropLast {l : DoublyLinkedList α} {ids : List Nat}
    (h : WF l ids) (hne : ids ≠ []) :
    (l.remove (ids.getLast hne)).toListFwd = l.toListFwd.dropLast := by
  rw [toListFwd_eq (WF_remove_getLast h hne), toListFwd_eq h,
    ← List.map_dropLast]
  simp only [show ∀ j, ((l.remove (ids.getLast hne)).nodes j).data
    = (l.nodes j).data from fun j => removeNode_data l.nodes _ j]

/-- C8: for the doubly linked list, each of pop (popBack), popleft
(popFront), front and back raises the EmptyContainer error if and only if
the list is empty at the call, leaving the list unchanged in that case; on a
non-empty list, popleft removes and returns the front (oldest-appended)
value, pop removes and returns the back value, and front/back return those
values without removing them. -/
theorem C8_dll_pop_peek_spec {α : Type} {l : DoublyLinkedList α}
    {ids : List Nat} (h : WF l ids) : PopPeekSpec l ids := by
  constructor
  · intro hnil
    exact ⟨(pop_spec h).1 hnil, (popleft_spec h).1 hnil,
      (front_spec h).1 hnil, (back_spec h).1 hnil⟩
  · intro hne
    refine ⟨(l.nodes (ids.head hne)).data, (l.nodes (ids.getLast hne)).data,
      l.remove (ids.head hne), l.remove (ids.getLast hne),
      ?_, ?_, ?_, ?_, ?_, ?_, ?_, ?_, ?_, ?_⟩
    · rw [toListFwd_eq h, List.head?_map, List.head?_eq_head hne]
      rfl
    · rw [toListFwd_eq h, List.getLast?_map,
        List.getLast?_eq_getLast_of_ne_nil hne]
      rfl
    · exact (popleft_spec h).2 hne
    · exact WF_remove_head h hne
    · exact remove_toListFwd_tail h hne
    · exact (pop_spec h).2 hne
    · exact WF_remove_getLast h hne
    · exact remove_toListFwd_dropLast h hne
    · exact (front_spec h).2 hne
    · exact (back_spec h).2 hne

theorem C8_dll_pop_peek_spec_witness :
    WF dllEx1 [2] ∧ PopPeekSpec dllEx1 [2] :=
  ⟨by decide, C8_dll_pop_peek_spec (by decide)⟩

/-- C9: for every state of the doubly linked list reachable by append,
appendleft, pop, popleft, remove, removeappend and removeappendleft, the
forward snapshot iteration yields exactly the reverse of the backward
snapshot iteration, and the number of values yielded equals len(). -/
theorem C9_dll_iteration_reverse {α : Type} {l : DoublyLinkedList α}
    (h : ∃ ids, ReachableIds l ids) : IterReverseSpec l := by
  obtain ⟨ids, hr⟩ := h
  have hwf := hr.toWF
  constructor
  · rw [toListFwd_eq hwf, toListBwd_eq hwf, ← List.map_reverse,
      List.reverse_reverse]
  · rw [toListFwd_eq hwf, len_eq hwf, List.length_map]

theorem C9_dll_iteration_reverse_witness :
    (∃ ids, ReachableIds dllEx2 ids) ∧ IterReverseSpec dllEx2 :=
  ⟨⟨[3, 2], ReachableIds.appendleft _ _ 7
      (ReachableIds.append _ _ 5 ReachableIds.init)⟩,
    C9_dll_iteration_reverse ⟨[3, 2], ReachableIds.appendleft _ _ 7
      (ReachableIds.append _ _ 5 ReachableIds.init)⟩⟩

theorem alistGet_alistPop_ne {β : Type} (m : List (Nat × β)) (k k2 : Nat)
    (h : k ≠ k2) : alistGet (alistPop m k2) k = alistGet m k := by
  induction m with
  | nil => rfl
  | cons p rest ih =>
    by_cases hp : p.1 = k2
    · rw [alistPop, if_pos (by simp [hp]), alistGet,
        if_neg (by simp [hp, Ne.symm h])]
    · rw [alistPop, if_neg (by simp [hp])]
      by_cases hk : p.1 = k
      · rw [alistGet, if_pos (by simp [hk]), alistGet, if_pos (by simp [hk])]
      · rw [alistGet, if_neg (by simp [hk]), alistGet, if_neg (by simp [hk]),
          ih]

theorem alistPop_sublist {β : Type} (m : List (Nat × β)) (k : Nat) :
    List.Sublist (alistPop m k) m := by
  induction m with
  | nil => exact List.Sublist.refl _
  | cons p rest ih =>
    by_cases hp : p.1 = k
    · rw [alistPop, if_pos (by simp [hp])]
      exact List.sublist_cons_self p rest
    · rw [alistPop, if_neg (by simp [hp])]
      exact List.Sublist.cons₂ p ih

theorem fst_ne_of_mem_alistPop {β : Type} {m : List (Nat × β)} {k : Nat}
    (hnd : (m.map Prod.fst).Nodup) {p : Nat × β} (hp : p ∈ alistPop m k) :
    p.1 ≠ k := by
  induction m with
  | nil => exact absurd hp (List.not_mem_nil p)
  | cons p2 rest ih =>
    rw [List.map_cons, List.nodup_cons] at hnd
    by_cases h2 : p2.1 = k
    · rw [alistPop, if_pos (by simp [h2])] at hp
      intro hcon
      exact hnd.1 (h2 ▸ hcon ▸ List.mem_map_of_mem Prod.fst hp)
    · rw [alistPop, if_neg (by simp [h2])] at hp
      rcases List.mem_cons.mp hp with hp | hp
      · rw [hp]; exact h2
      · exact ih hnd.2 hp

theorem RemoveKeysFromLUT_sublist {β : Type} (keys : List Nat) :
    ∀ (m : List (Nat × β)), List.Sublist (RemoveKeysFromLUT m keys) m := by
  induction keys with
  | nil => intro m; exact List.Sublist.refl _
  | cons k keys ih =>
    intro m
    exact (ih (alistPop m k)).trans (alistPop_sublist m k)

theorem alistGet_RemoveKeysFromLUT_not_mem {β : Type} {keys : List Nat}
    {k : Nat} (h : k ∉ keys) :
    ∀ (m : List (Nat × β)),
      alistGet (RemoveKeysFromLUT m keys) k = alistGet m k := by
  induction keys with
  | nil => intro m; rfl
  | cons k2 keys ih =>
    intro m
    have h1 : k ∉ keys := fun hm => h (List.mem_cons_of_mem _ hm)
    have h2 : k ≠ k2 := fun hm => h (hm ▸ List.mem_cons_self _ _)
    show alistGet (RemoveKeysFromLUT (alistPop m k2) keys) k = alistGet m k
    rw [ih h1, alistGet_alistPop_ne m k k2 h2]

theorem fst_not_mem_RemoveKeysFromLUT {β : Type} {keys : List Nat} :
    ∀ {m : List (Nat × β)}, (m.map Prod.fst).Nodup →
      ∀ {p : Nat × β}, p ∈ RemoveKeysFromLUT m keys → p.1 ∉ keys := by
  induction keys with
  | nil => intro m _ p _ hm; exact List.not_mem_nil _ hm
  | cons k2 keys ih =>
    intro m hnd p hp hm
    have hpop : p ∈ RemoveKeysFromLUT (alistPop m k2) keys := hp
    have hndpop : ((alistPop m k2).map Prod.fst).Nodup :=
      ((alistPop_sublist m k2).map Prod.fst).nodup hnd
    rcases List.mem_cons.mp hm with hm | hm
    · exact fst_ne_of_mem_alistPop hnd
        ((RemoveKeysFromLUT_sublist keys _).mem hpop) hm
    · exact ih hndpop hpop hm

theorem alistGet_alistPut_self {β : Type} (m : List (Nat × β)) (k : Nat)
    (v : β) : alistGet (alistPut m k v) k = some v := by
  induction m with
  | nil => simp [alistPut, alistGet]
  | cons p rest ih =>
    by_cases hp : p.1 = k
    · rw [alistPut, if_pos (by simp [hp]), alistGet, if_pos (by simp)]
    · rw [alistPut, if_neg (by simp [hp]), alistGet, if_neg (by simp [hp]),
        ih]

theorem alistGet_alistPut_ne {β : Type} (m : List (Nat × β)) (k k2 : Nat)
    (v : β) (h : k ≠ k2) :
    alistGet (alistPut m k2 v) k = alistGet m k := by
  induction m with
  | nil => simp [alistPut, alistGet, Ne.symm h]
  | cons p rest ih =>
    by_cases hp : p.1 = k2
    · rw [alistPut, if_pos (by simp [hp]), alistGet,
        if_neg (by simp [Ne.symm h]), alistGet, if_neg (by simp [hp, Ne.symm h])]
    · rw [alistPut, if_neg (by simp [hp])]
      by_cases hk : p.1 = k
      · rw [alistGet, if_pos (by simp [hk]), alistGet, if_pos (by simp [hk])]
      · rw [alistGet, if_neg (by simp [hk]), alistGet, if_neg (by simp [hk]),
          ih]

theorem mem_alistPut {β : Type} {m : List (Nat × β)} {k : Nat} {v : β}
    {p : Nat × β} (hp : p ∈ alistPut m k v) : p = (k, v) ∨ p ∈ m := by
  induction m with
  | nil =>
    rw [alistPut] at hp
    exact Or.inl (List.mem_singleton.mp hp)
  | cons p2 rest ih =>
    by_cases h2 : p2.1 = k
    · rw [alistPut, if_pos (by simp [h2])] at hp
      rcases List.mem_cons.mp hp with hp | hp
      · exact Or.inl hp
      · exact Or.inr (List.mem_cons_of_mem _ hp)
    · rw [alistPut, if_neg (by simp [h2])] at hp
      rcases List.mem_cons.mp hp with hp | hp
      · exact Or.inr (hp ▸ List.mem_cons_self _ _)
      · rcases ih hp with hp | hp
        · exact Or.inl hp
        · exact Or.inr (List.mem_cons_of_mem _ hp)

theorem mem_map_fst_alistPut {β : Type} {m : List (Nat × β)} {k : Nat}
    {v : β} {x : Nat} (hx : x ∈ (alistPut m k v).map Prod.fst) :
    x = k ∨ x ∈ m.map Prod.fst := by
  rcases List.mem_map.mp hx with ⟨p, hp, rfl⟩
  rcases mem_alistPut hp with hp | hp
  · exact Or.inl (by rw [hp])
  · exact Or.inr (List.mem_map_of_mem Prod.fst hp)

theorem alistPut_map_fst_nodup {β : Type} {m : List (Nat × β)} {k : Nat}
    {v : β} (hnd : (m.map Prod.fst).Nodup) :
    ((alistPut m k v).map Prod.fst).Nodup := by
  induction m with
  | nil => simp [alistPut]
  | cons p rest ih =>
    rw [List.map_cons, List.nodup_cons] at hnd
    by_cases hp : p.1 = k
    · rw [alistPut, if_pos (by simp [hp]), List.map_cons, List.nodup_cons]
      exact ⟨hp ▸ hnd.1, hnd.2⟩
    · rw [alistPut, if_neg (by simp [hp]), List.map_cons, List.nodup_cons]
      refine ⟨?_, ih hnd.2⟩
      intro hm
      rcases mem_map_fst_alistPut hm with hm | hm
      · exact hp hm
      · exact hnd.1 hm

theorem mem_foldl_alistPut {β : Type} {keys : List Nat} {v : β} :
    ∀ {m : List (Nat × β)} {p : Nat × β},
      p ∈ keys.foldl (fun acc k => alistPut acc k v) m →
      p ∈ m ∨ (p.1 ∈ keys ∧ p.2 = v) := by
  induction keys with
  | nil => intro m p hp; exact Or.inl hp
  | cons k2 keys ih =>
    intro m p hp
    rcases ih hp with hp | hp
    · rcases mem_alistPut hp with hp | hp
      · exact Or.inr ⟨by rw [hp]; exact List.mem_cons_self _ _, by rw [hp]⟩
      · exact Or.inl hp
    · exact Or.inr ⟨List.mem_cons_of_mem _ hp.1, hp.2⟩

theorem alistGet_foldl_alistPut_not_mem {β : Type} {keys : List Nat}
    {k : Nat} {v : β} (hk : k ∉ keys) :
    ∀ (m : List (Nat × β)),
      alistGet (keys.foldl (fun acc k2 => alistPut acc k2 v) m) k =
        alistGet m k := by
  induction keys with
  | nil => intro m; rfl
  | cons k2 keys ih =>
    intro m
    have h1 : k ∉ keys := fun hm => hk (List.mem_cons_of_mem _ hm)
    have h2 : k ≠ k2 := fun hm => hk (hm ▸ List.mem_cons_self _ _)
    show alistGet (keys.foldl _ (alistPut m k2 v)) k = alistGet m k
    rw [ih h1, alistGet_alistPut_ne m k k2 v h2]

theorem alistGet_foldl_alistPut_mem {β : Type} {keys : List Nat} {k : Nat}
    {v : β} (hk : k ∈ keys) :
    ∀ (m : List (Nat × β)),
      alistGet (keys.foldl (fun acc k2 => alistPut acc k2 v) m) k =
        some v := by
  induction keys with
  | nil => exact absurd hk (List.not_mem_nil k)
  | cons k2 keys ih =>
    intro m
    by_cases hmem : k ∈ keys
    · exact ih hmem (alistPut m k2 v)
    · have hkk : k = k2 := by
        rcases List.mem_cons.mp hk with h | h
        · exact h
        · exact absurd h hmem
      show alistGet (keys.foldl _ (alistPut m k2 v)) k = some v
      rw [alistGet_foldl_alistPut_not_mem hmem, hkk, alistGet_alistPut_self]

theorem foldl_alistPut_map_fst_nodup {β : Type} {keys : List Nat} {v : β} :
    ∀ {m : List (Nat × β)}, (m.map Prod.fst).Nodup →
      ((keys.foldl (fun acc k => alistPut acc k v) m).map Prod.fst).Nodup := by
  induction keys with
  | nil => intro m h; exact h
  | cons k2 keys ih =>
    intro m h
    exact ih (alistPut_map_fst_nodup h)

theorem expiryAt_congr {q q2 : DoublyLinkedList (Nat × KVItem)}
    (h : ∀ j, (q2.nodes j).data = (q.nodes j).data) :
    expiryAt q2 = expiryAt q :=
  funext fun j => by rw [expiryAt, expiryAt, h]

theorem itemAt_congr {q q2 : DoublyLinkedList (Nat × KVItem)}
    (h : ∀ j, (q2.nodes j).data = (q.nodes j).data) :
    itemAt q2 = itemAt q :=
  funext fun j => by rw [itemAt, itemAt, h]

/-- Characterisation of the uniform-cache eviction loop on a well-formed
queue with a sound and complete lookup table: it pops exactly the longest
front segment of already-expired nodes, terminating each popped item in
order and dropping its keys from the table, and touches nothing else. -/
theorem cleanLoopUni_spec (now : Nat) :
    ∀ (ids : List Nat) (fuel : Nat) (q : DoublyLinkedList (Nat × KVItem))
      (m : List (Nat × Nat)),
      WF q ids →
      (∀ i ∈ ids, ((q.nodes i).data).isSome = true) →
      (m.map Prod.fst).Nodup →
      (∀ p ∈ m, p.2 ∈ ids ∧ p.1 ∈ (itemAt q p.2).keys) →
      (∀ i ∈ ids, ∀ k ∈ (itemAt q i).keys, alistGet m k = some i) →
      ids.length < fuel →
      WF (cleanLoopUni fuel q m now).1
          (ids.dropWhile (fun i => expiryAt q i < now)) ∧
      (∀ j, ((cleanLoopUni fuel q m now).1.nodes j).data
        = (q.nodes j).data) ∧
      (cleanLoopUni fuel q m now).1.nextId = q.nextId ∧
      (cleanLoopUni fuel q m now).2.2 =
        (ids.takeWhile (fun i => expiryAt q i < now)).map
          (fun i => (itemAt q i).id) ∧
      ((cleanLoopUni fuel q m now).2.1.map Prod.fst).Nodup ∧
      (∀ p ∈ (cleanLoopUni fuel q m now).2.1,
        p.2 ∈ ids.dropWhile (fun i => expiryAt q i < now) ∧
        p.1 ∈ (itemAt q p.2).keys) ∧
      (∀ i ∈ ids.dropWhile (fun i => expiryAt q i < now),
        ∀ k ∈ (itemAt q i).keys,
          alistGet (cleanLoopUni fuel q m now).2.1 k = some i) := by
  intro ids
  induction ids with
  | nil =>
    intro fuel q m hwf hds hnd hsound hcompl hfuel
    cases fuel with
    | zero => exact absurd hfuel (by simp)
    | succ f =>
      have hemp : q.emptyLockHeld = true := (emptyLockHeld_iff hwf).mpr rfl
      have hred : cleanLoopUni (f + 1) q m now = (q, m, []) := by
        rw [cleanLoopUni, if_pos hemp]
      rw [hred]
      exact ⟨hwf, fun j => rfl, rfl, by simp, hnd, hsound, hcompl⟩
  | cons i rest ih =>
    intro fuel q m hwf hds hnd hsound hcompl hfuel
    cases fuel with
    | zero => exact absurd hfuel (by simp)
    | succ f =>
      have hne : (i :: rest) ≠ [] := by simp
      have hndids : (i :: rest).Nodup := hwf.ids_nodup
      have hirest : i ∉ rest := (List.nodup_cons.mp hndids).1
      have hemp : q.emptyLockHeld = false := by
        cases hq : q.emptyLockHeld with
        | true => exact absurd ((emptyLockHeld_iff hwf).mp hq) hne
        | false => rfl
      have hfront := (front_spec hwf).2 hne
      have hdhead : (i :: rest).head hne = i := rfl
      rw [hdhead] at hfront
      obtain ⟨d, hd⟩ :=
        Option.isSome_iff_exists.mp (hds i (List.mem_cons_self i rest))
      obtain ⟨te, it⟩ := d
      have hfront2 : q.front = Except.ok (some (te, it)) := by
        rw [hfront, hd]
      have hexp : expiryAt q i = te := by simp [expiryAt, hd]
      have hitem : itemAt q i = it := by simp [itemAt, hd]
      have hpl := (popleft_spec hwf).2 hne
      rw [hdhead] at hpl
      by_cases hlt : te < now
      · -- the front node is expired: one eviction step, then recurse
        have hred : cleanLoopUni (f + 1) q m now =
            ((cleanLoopUni f (q.remove i) (RemoveKeysFromLUT m it.keys)
                now).1,
             (cleanLoopUni f (q.remove i) (RemoveKeysFromLUT m it.keys)
                now).2.1,
             it.id :: (cleanLoopUni f (q.remove i)
                (RemoveKeysFromLUT m it.keys) now).2.2) := by
          rw [cleanLoopUni, if_neg (by rw [hemp]; exact Bool.false_ne_true),
            hfront2]
          simp only [hlt, if_pos, hpl]
        have hdata2 : ∀ j, ((q.remove i).nodes j).data = (q.nodes j).data :=
          fun j => removeNode_data q.nodes i j
        have hexpf : expiryAt (q.remove i) = expiryAt q :=
          expiryAt_congr hdata2
        have hitf : itemAt (q.remove i) = itemAt q := itemAt_congr hdata2
        have hwf2 : WF (q.remove i) rest := by
          have h2 := WF_remove_head hwf hne
          rwa [hdhead] at h2
        have hds2 : ∀ j ∈ rest, (((q.remove i).nodes j).data).isSome
            = true := by
          intro j hj
          rw [hdata2]
          exact hds j (List.mem_cons_of_mem _ hj)
        have hnd2 : ((RemoveKeysFromLUT m it.keys).map Prod.fst).Nodup :=
          ((RemoveKeysFromLUT_sublist it.keys m).map Prod.fst).nodup hnd
        have hsound2 : ∀ p ∈ RemoveKeysFromLUT m it.keys,
            p.2 ∈ rest ∧ p.1 ∈ (itemAt (q.remove i) p.2).keys := by
          intro p hp
          have hpm : p ∈ m := (RemoveKeysFromLUT_sublist it.keys m).mem hp
          have hkeys := fst_not_mem_RemoveKeysFromLUT hnd hp
          obtain ⟨hmem, hpk⟩ := hsound p hpm
          rw [hitf]
          refine ⟨?_, hpk⟩
          rcases List.mem_cons.mp hmem with hcon | hmem2
          · rw [hcon, hitem] at hpk
            exact absurd hpk hkeys
          · exact hmem2
        have hcompl2 : ∀ j ∈ rest, ∀ k ∈ (itemAt (q.remove i) j).keys,
            alistGet (RemoveKeysFromLUT m it.keys) k = some j := by
          intro j hj k hk
          rw [hitf] at hk
          have hknot : k ∉ it.keys := by
            intro hkit
            have h1 := hcompl i (List.mem_cons_self i rest) k
              (by rw [hitem]; exact hkit)
            have h2 := hcompl j (List.mem_cons_of_mem _ hj) k hk
            rw [h1] at h2
            exact hirest (Option.some.inj h2 ▸ hj)
          rw [alistGet_RemoveKeysFromLUT_not_mem hknot,
            hcompl j (List.mem_cons_of_mem _ hj) k hk]
        have hfuel2 : rest.length < f := by
          simp only [List.length_cons] at hfuel
          omega
        obtain ⟨c1, c2, c3, c4, c5, c6, c7⟩ :=
          ih f (q.remove i) (RemoveKeysFromLUT m it.keys) hwf2 hds2 hnd2
            hsound2 hcompl2 hfuel2
        have hpred : decide (expiryAt q i < now) = true := by
          rw [hexp]
          exact decide_eq_true hlt
        have hdrop : (i :: rest).dropWhile
            (fun j => decide (expiryAt q j < now)) =
            rest.dropWhile (fun j => decide (expiryAt q j < now)) :=
          List.dropWhile_cons_of_pos (by exact hpred)
        have htake : (i :: rest).takeWhile
            (fun j => decide (expiryAt q j < now)) =
            i :: rest.takeWhile (fun j => decide (expiryAt q j < now)) :=
          List.takeWhile_cons_of_pos (by exact hpred)
        rw [hred]
        rw [hexpf] at c1 c4 c6 c7
        rw [hitf] at c4 c6 c7
        refine ⟨by rw [hdrop]; exact c1, ?_, c3, ?_, c5, ?_, ?_⟩
        · intro j
          rw [c2 j, hdata2 j]
        · rw [htake, List.map_cons, hitem, c4]
        · intro p hp
          obtain ⟨h1, h2⟩ := c6 p hp
          exact ⟨by rw [hdrop]; exact h1, h2⟩
        · intro j hj k hk
          rw [hdrop] at hj
          exact c7 j hj k hk
      · -- the front node is not yet expired: the loop stops immediately
        have hred : cleanLoopUni (f + 1) q m now = (q, m, []) := by
          rw [cleanLoopUni, if_neg (by rw [hemp]; exact Bool.false_ne_true),
            hfront2]
          simp [hlt]
        have hpred : decide (expiryAt q i < now) = false := by
          rw [hexp]
          exact decide_eq_false hlt
        have hdrop : (i :: rest).dropWhile
            (fun j => decide (expiryAt q j < now)) = i :: rest :=
          List.dropWhile_cons_of_neg (by
            show ¬decide (expiryAt q i < now) = true
            rw [hpred]
            exact Bool.false_ne_true)
        have htake : (i :: rest).takeWhile
            (fun j => decide (expiryAt q j < now)) = [] :=
          List.takeWhile_cons_of_neg (by
            show ¬decide (expiryAt q i < now) = true
            rw [hpred]
            exact Bool.false_ne_true)
        rw [hred]
        refine ⟨?_, fun j => rfl, rfl, ?_, hnd, ?_, ?_⟩
        · rw [hdrop]; exact hwf
        · rw [htake]; rfl
        · intro p hp
          rw [hdrop]
          exact hsound p hp
        · intro j hj k hk
          rw [hdrop] at hj
          exact hcompl j hj k hk

theorem takeWhile_lt_eq_filter {α : Type} {e : α → Nat} {now : Nat} :
    ∀ {ids : List α}, List.Pairwise (fun i j => e i ≤ e j) ids →
      ids.takeWhile (fun i => e i < now) = ids.filter (fun i => e i < now) ∧
      ids.dropWhile (fun i => e i < now) =
        ids.filter (fun i => ¬(e i < now)) := by
  intro ids
  induction ids with
  | nil => intro _; exact ⟨rfl, rfl⟩
  | cons a t ih =>
    intro hp
    rw [List.pairwise_cons] at hp
    obtain ⟨ha, ht⟩ := hp
    obtain ⟨iht, ihd⟩ := ih ht
    by_cases hlt : e a < now
    · have hpa : decide (e a < now) = true := decide_eq_true hlt
      refine ⟨?_, ?_⟩
      · rw [List.takeWhile_cons_of_pos (by exact hpa),
          List.filter_cons_of_pos (by exact hpa), iht]
      · rw [List.dropWhile_cons_of_pos (by exact hpa),
          List.filter_cons_of_neg (by simp [hlt]), ihd]
    · have hpa : decide (e a < now) = false := decide_eq_false hlt
      have hall : ∀ x ∈ t, ¬(e x < now) := by
        intro x hx hcon
        exact hlt (Nat.lt_of_le_of_lt (ha x hx) hcon)
      refine ⟨?_, ?_⟩
      · rw [List.takeWhile_cons_of_neg (by simp [hlt]),
          List.filter_cons_of_neg (by simp [hlt])]
        exact (List.filter_eq_nil_iff.mpr (fun x hx => by
          simp [hall x hx])).symm
      · rw [List.dropWhile_cons_of_neg (by simp [hlt]),
          List.filter_cons_of_pos (by simp [hlt])]
        refine congrArg (a :: ·) ?_
        exact (List.filter_eq_self.mpr (fun x hx => by
          simp [hall x hx])).symm

/-- Unpacked form of the uniform-cache invariant. -/
theorem UniInv.unpack {s : MultiKeyUniTTLValueCache} {ids : List Nat}
    {t : Nat} (h : UniInv s ids t) :
    WF s.timeQueue ids ∧
    (∀ i ∈ ids, ((s.timeQueue.nodes i).data).isSome = true) ∧
    List.Pairwise
      (fun i j => expiryAt s.timeQueue i ≤ expiryAt s.timeQueue j) ids ∧
    (∀ i ∈ ids, expiryAt s.timeQueue i ≤ t + s.ttlNanoSec) ∧
    (s.keyValueMap.map Prod.fst).Nodup ∧
    (∀ p ∈ s.keyValueMap,
      p.2 ∈ ids ∧ p.1 ∈ (itemAt s.timeQueue p.2).keys) ∧
    (∀ i ∈ ids, ∀ k ∈ (itemAt s.timeQueue i).keys,
      alistGet s.keyValueMap k = some i) := h

/-- The lazy-eviction step of the uniform cache at clock value now, on a
state satisfying the invariant at an earlier clock value t: it terminates
exactly the items whose stored expiry is strictly below now (in queue
order), keeps everything else untouched, and restores the invariant at
now. -/
theorem uniCleanup_spec {s : MultiKeyUniTTLValueCache} {ids : List Nat}
    {t now : Nat} (h : UniInv s ids t) (hle : t ≤ now) :
    (s.CleanUpExpiredLockHeld now).1.ttlNanoSec = s.ttlNanoSec ∧
    UniInv (s.CleanUpExpiredLockHeld now).1
      (ids.filter (fun i => ¬(expiryAt s.timeQueue i < now))) now ∧
    (∀ j, ((s.CleanUpExpiredLockHeld now).1.timeQueue.nodes j).data
      = (s.timeQueue.nodes j).data) ∧
    (s.CleanUpExpiredLockHeld now).1.timeQueue.nextId
      = s.timeQueue.nextId ∧
    (s.CleanUpExpiredLockHeld now).1.keyValueMap
      = (cleanLoopUni s.timeQueue.nextId s.timeQueue s.keyValueMap now).2.1 ∧
    (s.CleanUpExpiredLockHeld now).2 =
      (ids.filter (fun i => expiryAt s.timeQueue i < now)).map
        (fun i => (itemAt s.timeQueue i).id) := by
  obtain ⟨hwf, hds, hsort, hbnd, hnd, hsound, hcompl⟩ := h.unpack
  obtain ⟨c1, c2, c3, c4, c5, c6, c7⟩ :=
    cleanLoopUni_spec now ids s.timeQueue.nextId s.timeQueue s.keyValueMap
      hwf hds hnd hsound hcompl hwf.ids_length_lt
  obtain ⟨htake, hdrop⟩ := takeWhile_lt_eq_filter hsort
  have hres : s.CleanUpExpiredLockHeld now =
      (⟨s.ttlNanoSec,
        (cleanLoopUni s.timeQueue.nextId s.timeQueue s.keyValueMap now).1,
        (cleanLoopUni s.timeQueue.nextId s.timeQueue s.keyValueMap
          now).2.1⟩,
       (cleanLoopUni s.timeQueue.nextId s.timeQueue s.keyValueMap
          now).2.2) := rfl
  rw [hres]
  rw [hdrop] at c1 c6 c7
  rw [htake] at c4
  have hexpc : expiryAt
      (cleanLoopUni s.timeQueue.nextId s.timeQueue s.keyValueMap now).1
      = expiryAt s.timeQueue := expiryAt_congr c2
  have hitc : itemAt
      (cleanLoopUni s.timeQueue.nextId s.timeQueue s.keyValueMap now).1
      = itemAt s.timeQueue := itemAt_congr c2
  rw [← hitc] at c6 c7
  refine ⟨rfl, ?_, c2, c3, rfl, c4⟩
  refine ⟨c1, ?_, ?_, ?_, c5, c6, c7⟩
  · intro i hi
    rw [c2]
    exact hds i (List.mem_of_mem_filter hi)
  · rw [hexpc]
    exact hsort.sublist (List.filter_sublist ids)
  · intro i hi
    rw [hexpc]
    have hle2 := hbnd i (List.mem_of_mem_filter hi)
    show expiryAt s.timeQueue i ≤ now + s.ttlNanoSec
    omega

theorem append_data (q : DoublyLinkedList (Nat × KVItem)) (d : Nat × KVItem)
    (j : Nat) : ((q.append d).2.nodes j).data =
      if j = q.nextId then some d else (q.nodes j).data := by
  show ((insertNodeLeft (updNode q.nodes q.nextId ⟨none, none, some d⟩)
    q.nextId tailId) j).data = _
  rw [insertNodeLeft_data]
  by_cases hj : j = q.nextId <;> simp [updNode, hj]

/-- Overwriting the data slot of a node does not disturb the chain. -/
theorem WF_setData {q : DoublyLinkedList (Nat × KVItem)} {ids : List Nat}
    (h : WF q ids) (nid : Nat) (v : Option (Nat × KVItem)) :
    WF ⟨setData q.nodes nid v, q.nextId⟩ ids := by
  obtain ⟨hch, hnd, hb, h2le⟩ := h
  refine ⟨?_, hnd, hb, h2le⟩
  refine chain'_nodeRel_congr ?_ ?_ hch
  · intro x _
    rw [setData_next]
  · intro x _
    rw [setData_prev]

/-- The drain loop of Terminate terminates every live item, in queue
order, and leaves an empty well-formed queue with allocator preserved. -/
theorem termLoopUni_spec :
    ∀ (ids : List Nat) (fuel : Nat) (q : DoublyLinkedList (Nat × KVItem))
      (m : List (Nat × Nat)),
      WF q ids →
      (∀ i ∈ ids, ((q.nodes i).data).isSome = true) →
      ids.length < fuel →
      WF (termLoopUni fuel q m).1 [] ∧
      (termLoopUni fuel q m).1.nextId = q.nextId ∧
      (termLoopUni fuel q m).2.2 =
        ids.map (fun i => (itemAt q i).id) := by
  intro ids
  induction ids with
  | nil =>
    intro fuel q m hwf hds hfuel
    cases fuel with
    | zero => exact absurd hfuel (by simp)
    | succ f =>
      have hemp : q.emptyLockHeld = true := (emptyLockHeld_iff hwf).mpr rfl
      have hred : termLoopUni (f + 1) q m = (q, m, []) := by
        rw [termLoopUni, if_pos hemp]
      rw [hred]
      exact ⟨hwf, rfl, by simp⟩
  | cons i rest ih =>
    intro fuel q m hwf hds hfuel
    cases fuel with
    | zero => exact absurd hfuel (by simp)
    | succ f =>
      have hne : (i :: rest) ≠ [] := by simp
      have hemp : q.emptyLockHeld = false := by
        cases hq : q.emptyLockHeld with
        | true => exact absurd ((emptyLockHeld_iff hwf).mp hq) hne
        | false => rfl
      obtain ⟨d, hd⟩ :=
        Option.isSome_iff_exists.mp (hds i (List.mem_cons_self i rest))
      have hpl := (popleft_spec hwf).2 hne
      rw [show (i :: rest).head hne = i from rfl] at hpl
      have hpl2 : q.popleft = (Except.ok (some d), q.remove i) := by
        rw [hpl, hd]
      have hred : termLoopUni (f + 1) q m =
          ((termLoopUni f (q.remove i) (RemoveKeysFromLUT m d.2.keys)).1,
           (termLoopUni f (q.remove i) (RemoveKeysFromLUT m d.2.keys)).2.1,
           d.2.id :: (termLoopUni f (q.remove i)
            (RemoveKeysFromLUT m d.2.keys)).2.2) := by
        rw [termLoopUni, if_neg (by rw [hemp]; exact Bool.false_ne_true),
          hpl2]
      have hwf2 : WF (q.remove i) rest := by
        have h2 := WF_remove_head hwf hne
        rwa [show (i :: rest).head hne = i from rfl] at h2
      have hdata2 : ∀ j, ((q.remove i).nodes j).data = (q.nodes j).data :=
        fun j => removeNode_data q.nodes i j
      have hds2 : ∀ j ∈ rest, (((q.remove i).nodes j).data).isSome
          = true := by
        intro j hj
        rw [hdata2]
        exact hds j (List.mem_cons_of_mem _ hj)
      have hfuel2 : rest.length < f := by
        simp only [List.length_cons] at hfuel
        omega
      obtain ⟨c1, c2, c3⟩ := ih f (q.remove i)
        (RemoveKeysFromLUT m d.2.keys) hwf2 hds2 hfuel2
      rw [hred]
      refine ⟨c1, by rw [c2]; rfl, ?_⟩
      rw [c3, List.map_cons]
      have hit : itemAt q i = d.2 := by simp [itemAt, hd]
      rw [hit, itemAt_congr hdata2]

theorem mem_of_alistGet_eq_some {β : Type} {m : List (Nat × β)} {k : Nat}
    {v : β} (h : alistGet m k = some v) : (k, v) ∈ m := by
  induction m with
  | nil => exact absurd h (by rw [alistGet]; exact Option.noConfusion)
  | cons p rest ih =>
    by_cases hp : p.1 = k
    · rw [alistGet, if_pos (by simp [hp])] at h
      have hpv : p = (k, v) := by
        obtain ⟨p1, p2⟩ := p
        simp only at hp
        simp only [Option.some.injEq] at h
        rw [hp, h]
      exact hpv ▸ List.mem_cons_self p rest
    · rw [alistGet, if_neg (by simp [hp])] at h
      exact List.mem_cons_of_mem _ (ih h)

@[simp] theorem removeappend_data {α : Type} (l : DoublyLinkedList α)
    (n : Nat) (j : Nat) :
    ((l.removeappend n).nodes j).data = (l.nodes j).data := by
  show ((insertNodeLeft (removeNode l.nodes n) n tailId) j).data = _
  rw [insertNodeLeft_data, removeNode_data]

/-- Put with a colliding key on the uniform cache: after the shared lazy
eviction, the raise mode returns the KeyAlreadyExists error and the ignore
mode returns normally; both leave the state exactly as the lazy eviction
left it (no binding added or changed). -/
theorem uniPut_collision {s : MultiKeyUniTTLValueCache} {now : Nat}
    {item : KVItem}
    (hcol : ∃ k ∈ item.keys,
      alistContains (s.CleanUpExpiredLockHeld now).1.keyValueMap k = true) :
    s.Put now item true = (Except.error CacheErr.keyAlreadyExists,
      (s.CleanUpExpiredLockHeld now).1, (s.CleanUpExpiredLockHeld now).2) ∧
    s.Put now item false = (Except.ok (),
      (s.CleanUpExpiredLockHeld now).1, (s.CleanUpExpiredLockHeld now).2) := by
  have hsome : (item.keys.find? (fun k =>
      alistContains (s.CleanUpExpiredLockHeld now).1.keyValueMap k)).isSome
      = true := by
    rw [List.find?_isSome]
    obtain ⟨k, hk, hck⟩ := hcol
    exact ⟨k, hk, hck⟩
  obtain ⟨k2, hk2⟩ := Option.isSome_iff_exists.mp hsome
  constructor
  · show (match item.keys.find? (fun k =>
        alistContains (s.CleanUpExpiredLockHeld now).1.keyValueMap k) with
      | some _ => _
      | none => _) = _
    rw [hk2]
    rfl
  · show (match item.keys.find? (fun k =>
        alistContains (s.CleanUpExpiredLockHeld now).1.keyValueMap k) with
      | some _ => _
      | none => _) = _
    rw [hk2]
    rfl

/-- Put with collision-free keys on the uniform cache: one node carrying
(now + TTL, item) is appended at the queue tail, every key of the item is
bound to that node, and the invariant is restored at now. -/
theorem uniPut_success {s : MultiKeyUniTTLValueCache} {ids : List Nat}
    {t now : Nat} {item : KVItem} (h : UniInv s ids t) (hle : t ≤ now)
    (b : Bool)
    (hfree : ∀ k ∈ item.keys,
      alistContains (s.CleanUpExpiredLockHeld now).1.keyValueMap k
        = false) :
    ∃ s2, s.Put now item b = (Except.ok (), s2,
        (s.CleanUpExpiredLockHeld now).2) ∧
      s2.ttlNanoSec = s.ttlNanoSec ∧
      expiryAt s2.timeQueue s.timeQueue.nextId = now + s.ttlNanoSec ∧
      itemAt s2.timeQueue s.timeQueue.nextId = item ∧
      (∀ j, j ≠ s.timeQueue.nextId → (s2.timeQueue.nodes j).data
        = ((s.CleanUpExpiredLockHeld now).1.timeQueue.nodes j).data) ∧
      (∀ k ∈ item.keys,
        alistGet s2.keyValueMap k = some s.timeQueue.nextId) ∧
      UniInv s2
        ((ids.filter (fun i => ¬(expiryAt s.timeQueue i < now)))
          ++ [s.timeQueue.nextId]) now := by
  obtain ⟨httl, hinv1, hdata1, hnext1, hmap1, hev1⟩ := uniCleanup_spec h hle
  set s1 := (s.CleanUpExpiredLockHeld now).1 with hs1
  set R := ids.filter (fun i => ¬(expiryAt s.timeQueue i < now)) with hR
  obtain ⟨hwf1, hds1, hsort1, hbnd1, hnd1, hsound1, hcompl1⟩ := hinv1.unpack
  have hnone : item.keys.find? (fun k => alistContains s1.keyValueMap k)
      = none := by
    rw [List.find?_eq_none]
    intro k hk
    rw [hfree k hk]
    exact Bool.false_ne_true
  set nid := s.timeQueue.nextId with hnid
  have hnid1 : s1.timeQueue.nextId = nid := hnext1
  set q2 := (s1.timeQueue.append (now + s1.ttlNanoSec, item)).2 with hq2
  set m2 := item.keys.foldl (fun acc k => alistPut acc k
    (s1.timeQueue.append (now + s1.ttlNanoSec, item)).1) s1.keyValueMap
    with hm2
  have happ1 : (s1.timeQueue.append (now + s1.ttlNanoSec, item)).1
      = nid := by rw [← hnid1]; rfl
  have hput : s.Put now item b = (Except.ok (), ⟨s1.ttlNanoSec, q2, m2⟩,
      (s.CleanUpExpiredLockHeld now).2) := by
    show (match item.keys.find? (fun k =>
        alistContains s1.keyValueMap k) with
      | some _ => _
      | none => _) = _
    rw [hnone]
  have hdata2 : ∀ j, (q2.nodes j).data =
      if j = nid then some (now + s1.ttlNanoSec, item)
      else (s1.timeQueue.nodes j).data := by
    intro j
    rw [hq2, append_data, hnid1]
  have hRlt : ∀ i ∈ R, i < nid := by
    intro i hi
    have := hwf1.2.2.1 i hi
    rw [hnid1] at this
    exact this.2
  have hRne : ∀ i ∈ R, i ≠ nid := fun i hi => Nat.ne_of_lt (hRlt i hi)
  have hexpq2 : ∀ i ∈ R, expiryAt q2 i = expiryAt s1.timeQueue i := by
    intro i hi
    rw [expiryAt, hdata2, if_neg (hRne i hi), expiryAt]
  have hitq2 : ∀ i ∈ R, itemAt q2 i = itemAt s1.timeQueue i := by
    intro i hi
    rw [itemAt, hdata2, if_neg (hRne i hi), itemAt]
  have hexpnid : expiryAt q2 nid = now + s1.ttlNanoSec := by
    rw [expiryAt, hdata2, if_pos rfl]
    rfl
  have hitnid : itemAt q2 nid = item := by
    rw [itemAt, hdata2, if_pos rfl]
    rfl
  have httl1 : s1.ttlNanoSec = s.ttlNanoSec := httl
  have hwf2 : WF q2 (R ++ [nid]) := by
    have := WF_append hwf1 (now + s1.ttlNanoSec, item)
    rwa [hnid1] at this
  refine ⟨⟨s1.ttlNanoSec, q2, m2⟩, hput, httl1, ?_, ?_, ?_, ?_, ?_⟩
  · show expiryAt q2 nid = now + s.ttlNanoSec
    rw [hexpnid, httl1]
  · exact hitnid
  · intro j hj
    show (q2.nodes j).data = (s1.timeQueue.nodes j).data
    rw [hdata2, if_neg hj]
  · intro k hk
    show alistGet m2 k = some nid
    rw [hm2, happ1]
    exact alistGet_foldl_alistPut_mem hk s1.keyValueMap
  · refine ⟨hwf2, ?_, ?_, ?_, ?_, ?_, ?_⟩
    · intro i hi
      rcases List.mem_append.mp hi with hi | hi
      · rw [hdata2, if_neg (hRne i hi)]
        exact hds1 i hi
      · rw [List.mem_singleton.mp hi, hdata2, if_pos rfl]
        rfl
    · rw [List.pairwise_append]
      refine ⟨?_, List.pairwise_singleton _ _, ?_⟩
      · refine List.Pairwise.imp_of_mem ?_ hsort1
        intro a b ha hb hab
        rw [hexpq2 a ha, hexpq2 b hb]
        exact hab
      · intro a ha b hb
        rw [List.mem_singleton.mp hb, hexpq2 a ha, hexpnid]
        have := hbnd1 a ha
        omega
    · intro i hi
      rcases List.mem_append.mp hi with hi | hi
      · rw [hexpq2 i hi]
        show expiryAt s1.timeQueue i ≤ now + s1.ttlNanoSec
        exact hbnd1 i hi
      · rw [List.mem_singleton.mp hi, hexpnid]
    · show (m2.map Prod.fst).Nodup
      rw [hm2]
      exact foldl_alistPut_map_fst_nodup hnd1
    · intro p hp
      show p.2 ∈ R ++ [nid] ∧ p.1 ∈ (itemAt q2 p.2).keys
      rcases mem_foldl_alistPut hp with hp2 | hp2
      · obtain ⟨hmem, hkey⟩ := hsound1 p hp2
        exact ⟨List.mem_append_left _ hmem,
          by rw [hitq2 p.2 hmem]; exact hkey⟩
      · rw [happ1] at hp2
        refine ⟨List.mem_append_right _ (by
          rw [hp2.2]; exact List.mem_singleton_self _), ?_⟩
        rw [hp2.2, hitnid]
        exact hp2.1
    · intro i hi k hk
      show alistGet m2 k = some i
      rcases List.mem_append.mp hi with hi | hi
      · rw [hitq2 i hi] at hk
        have hknotin : k ∉ item.keys := by
          intro hkin
          have h2 := hfree k hkin
          rw [alistContains, hcompl1 i hi k hk] at h2
          simp at h2
        rw [hm2, alistGet_foldl_alistPut_not_mem hknotin]
        exact hcompl1 i hi k hk
      · rw [List.mem_singleton.mp hi] at hk ⊢
        rw [hitnid] at hk
        rw [hm2, happ1]
        exact alistGet_foldl_alistPut_mem hk s1.keyValueMap

/-- Get on the uniform cache: after lazy eviction, a miss returns the
absent default and leaves the state exactly as eviction left it; a hit
returns the stored item, re-stamps the found node with now + TTL, moves it
to the queue tail, changes no binding and no other node, and restores the
invariant. -/
theorem uniGet_spec {s : MultiKeyUniTTLValueCache} {ids : List Nat}
    {t now k : Nat} (h : UniInv s ids t) (hle : t ≤ now) :
    (alistGet (s.CleanUpExpiredLockHeld now).1.keyValueMap k = none →
      s.Get now k = (none, (s.CleanUpExpiredLockHeld now).1,
        (s.CleanUpExpiredLockHeld now).2)) ∧
    (∀ nid, alistGet (s.CleanUpExpiredLockHeld now).1.keyValueMap k
        = some nid →
      ∃ s2, s.Get now k =
          (some (itemAt (s.CleanUpExpiredLockHeld now).1.timeQueue nid), s2,
           (s.CleanUpExpiredLockHeld now).2) ∧
        s2.ttlNanoSec = s.ttlNanoSec ∧
        s2.keyValueMap = (s.CleanUpExpiredLockHeld now).1.keyValueMap ∧
        expiryAt s2.timeQueue nid = now + s.ttlNanoSec ∧
        (∀ j, j ≠ nid → (s2.timeQueue.nodes j).data
          = ((s.CleanUpExpiredLockHeld now).1.timeQueue.nodes j).data) ∧
        (∀ j, itemAt s2.timeQueue j
          = itemAt (s.CleanUpExpiredLockHeld now).1.timeQueue j) ∧
        UniInv s2
          (((ids.filter (fun i => ¬(expiryAt s.timeQueue i < now))).erase
            nid) ++ [nid]) now) := by
  obtain ⟨httl, hinv1, hdata1, hnext1, hmap1, hev1⟩ := uniCleanup_spec h hle
  set s1 := (s.CleanUpExpiredLockHeld now).1 with hs1
  set R := ids.filter (fun i => ¬(expiryAt s.timeQueue i < now)) with hR
  obtain ⟨hwf1, hds1, hsort1, hbnd1, hnd1, hsound1, hcompl1⟩ := hinv1.unpack
  constructor
  · intro hnone
    show (match alistGet s1.keyValueMap k with
      | none => _
      | some nid => _) = _
    rw [hnone]
  · intro nid hbind
    have hmem := hsound1 (k, nid) (mem_of_alistGet_eq_some hbind)
    obtain ⟨hnidR, hkkey⟩ := hmem
    obtain ⟨d, hd⟩ := Option.isSome_iff_exists.mp (hds1 nid hnidR)
    have hit1 : itemAt s1.timeQueue nid = d.2 := by simp [itemAt, hd]
    set q2 : DoublyLinkedList (Nat × KVItem) :=
      ⟨setData s1.timeQueue.nodes nid (some (now + s1.ttlNanoSec, d.2)),
        s1.timeQueue.nextId⟩ with hq2
    set q3 := q2.removeappend nid with hq3
    have hget : s.Get now k = (some d.2, ⟨s1.ttlNanoSec, q3,
        s1.keyValueMap⟩, (s.CleanUpExpiredLockHeld now).2) := by
      show (match alistGet s1.keyValueMap k with
        | none => _
        | some nid => _) = _
      rw [hbind]
      show (match (s1.timeQueue.nodes nid).data with
        | some d => _
        | none => _) = _
      rw [hd]
    have hdq3 : ∀ j, (q3.nodes j).data =
        if j = nid then some (now + s1.ttlNanoSec, d.2)
        else (s1.timeQueue.nodes j).data := by
      intro j
      rw [hq3, removeappend_data, hq2]
      show ((setData s1.timeQueue.nodes nid
        (some (now + s1.ttlNanoSec, d.2))) j).data = _
      rw [setData_data]
    have hitq3 : ∀ j, itemAt q3 j = itemAt s1.timeQueue j := by
      intro j
      by_cases hj : j = nid
      · rw [itemAt, hdq3, if_pos hj, hj, hit1]
        rfl
      · rw [itemAt, hdq3, if_neg hj, itemAt]
    have hexpq3 : ∀ j, j ≠ nid → expiryAt q3 j
        = expiryAt s1.timeQueue j := by
      intro j hj
      rw [expiryAt, hdq3, if_neg hj, expiryAt]
    have hexpnid : expiryAt q3 nid = now + s1.ttlNanoSec := by
      rw [expiryAt, hdq3, if_pos rfl]
      rfl
    have hwq2 : WF q2 R := WF_setData hwf1 nid _
    have hwq3 : WF q3 (R.erase nid ++ [nid]) := WF_removeappend hwq2 hnidR
    have hperm : (R.erase nid ++ [nid]).Perm R :=
      (List.perm_append_singleton nid (R.erase nid)).trans
        (List.perm_cons_erase hnidR).symm
    have hRnd : R.Nodup := hwf1.ids_nodup
    have hmemer : ∀ j ∈ R.erase nid, j ∈ R ∧ j ≠ nid := by
      intro j hj
      exact ⟨(List.erase_sublist nid R).mem hj,
        ((List.Nodup.mem_erase_iff hRnd).mp hj).1⟩
    refine ⟨⟨s1.ttlNanoSec, q3, s1.keyValueMap⟩, (by rw [hget, hit1]), httl,
      rfl, (by rw [show s.ttlNanoSec = s1.ttlNanoSec from httl.symm]
               exact hexpnid), ?_, hitq3, ?_⟩
    · intro j hj
      show (q3.nodes j).data = (s1.timeQueue.nodes j).data
      rw [hdq3, if_neg hj]
    · refine ⟨hwq3, ?_, ?_, ?_, hnd1, ?_, ?_⟩
      · intro i hi
        show ((q3.nodes i).data).isSome = true
        rw [hdq3]
        by_cases hj : i = nid
        · rw [if_pos hj]
          rfl
        · rw [if_neg hj]
          exact hds1 i (hperm.mem_iff.mp hi)
      · rw [List.pairwise_append]
        refine ⟨?_, List.pairwise_singleton _ _, ?_⟩
        · refine List.Pairwise.imp_of_mem ?_
            (hsort1.sublist (List.erase_sublist nid R))
          intro a b ha hb hab
          rw [hexpq3 a (hmemer a ha).2, hexpq3 b (hmemer b hb).2]
          exact hab
        · intro a ha b hb
          rw [List.mem_singleton.mp hb, hexpq3 a (hmemer a ha).2, hexpnid]
          have := hbnd1 a (hmemer a ha).1
          omega
      · intro i hi
        show expiryAt q3 i ≤ now + s1.ttlNanoSec
        rcases List.mem_append.mp hi with hi | hi
        · rw [hexpq3 i (hmemer i hi).2]
          exact hbnd1 i (hmemer i hi).1
        · rw [List.mem_singleton.mp hi, hexpnid]
      · intro p hp
        obtain ⟨hpm, hpk⟩ := hsound1 p hp
        exact ⟨hperm.mem_iff.mpr hpm, by rw [hitq3]; exact hpk⟩
      · intro i hi k2 hk2
        rw [hitq3] at hk2
        exact hcompl1 i (hperm.mem_iff.mp hi) k2 hk2

/-- Terminate on the uniform cache: every live item is terminated once, in
queue order; afterwards the queue is empty, the lookup table is cleared,
len() and NumOfKeys() report 0, and a second Terminate does nothing. -/
theorem uniTerminate_spec {s : MultiKeyUniTTLValueCache} {ids : List Nat}
    {t : Nat} (h : UniInv s ids t) :
    (s.Terminate).2 = ids.map (fun i => (itemAt s.timeQueue i).id) ∧
    (s.Terminate).1.keyValueMap = [] ∧
    (s.Terminate).1.ttlNanoSec = s.ttlNanoSec ∧
    (∀ u, UniInv (s.Terminate).1 [] u) ∧
    (∀ now, ((s.Terminate).1.lenq now).1 = 0 ∧
      ((s.Terminate).1.NumOfKeys now).1 = 0) ∧
    (s.Terminate).1.Terminate = ((s.Terminate).1, []) := by
  obtain ⟨hwf, hds, hsort, hbnd, hnd, hsound, hcompl⟩ := h.unpack
  obtain ⟨c1, c2, c3⟩ := termLoopUni_spec ids s.timeQueue.nextId
    s.timeQueue s.keyValueMap hwf hds hwf.ids_length_lt
  have hres : s.Terminate = (⟨s.ttlNanoSec,
      (termLoopUni s.timeQueue.nextId s.timeQueue s.keyValueMap).1, []⟩,
      (termLoopUni s.timeQueue.nextId s.timeQueue s.keyValueMap).2.2) :=
    rfl
  have hinv2 : ∀ u, UniInv (s.Terminate).1 [] u := by
    intro u
    rw [hres]
    refine ⟨c1, ?_, List.Pairwise.nil, ?_, List.nodup_nil, ?_, ?_⟩
    · intro i hi
      exact absurd hi (List.not_mem_nil i)
    · intro i hi
      exact absurd hi (List.not_mem_nil i)
    · intro p hp
      exact absurd hp (List.not_mem_nil p)
    · intro i hi
      exact absurd hi (List.not_mem_nil i)
  have hemp2 : (s.Terminate).1.timeQueue.emptyLockHeld = true :=
    (emptyLockHeld_iff c1).mpr rfl
  have h2le : 2 ≤ (s.Terminate).1.timeQueue.nextId := c1.2.2.2
  refine ⟨by rw [hres]; exact c3, by rw [hres], by rw [hres], hinv2, ?_, ?_⟩
  · intro now
    obtain ⟨httl2, hinv3, hdata3, hnext3, hmap3, hev3⟩ :=
      uniCleanup_spec (hinv2 now) (le_refl now)
    constructor
    · show ((s.Terminate).1.CleanUpExpiredLockHeld now).1.timeQueue.len = 0
      rw [len_eq hinv3.1]
      rfl
    · show ((s.Terminate).1.CleanUpExpiredLockHeld
        now).1.keyValueMap.length = 0
      rw [hmap3]
      have hloopnil : (cleanLoopUni (s.Terminate).1.timeQueue.nextId
          (s.Terminate).1.timeQueue (s.Terminate).1.keyValueMap now).2.1
          = (s.Terminate).1.keyValueMap := by
        obtain ⟨f2, hf2⟩ : ∃ f2, (s.Terminate).1.timeQueue.nextId
            = f2 + 1 := ⟨(s.Terminate).1.timeQueue.nextId - 1, by omega⟩
        rw [hf2, cleanLoopUni, if_pos hemp2]
      rw [hloopnil, hres]
      rfl
  · obtain ⟨f2, hf2⟩ : ∃ f2, (s.Terminate).1.timeQueue.nextId = f2 + 1 :=
      ⟨(s.Terminate).1.timeQueue.nextId - 1, by omega⟩
    show ((⟨(s.Terminate).1.ttlNanoSec,
      (termLoopUni (s.Terminate).1.timeQueue.nextId
        (s.Terminate).1.timeQueue (s.Terminate).1.keyValueMap).1, []⟩ :
        MultiKeyUniTTLValueCache),
      (termLoopUni (s.Terminate).1.timeQueue.nextId
        (s.Terminate).1.timeQueue (s.Terminate).1.keyValueMap).2.2) = _
    rw [hf2, termLoopUni, if_pos hemp2]
    rw [hres]

/-- C2 (amended): an entry put at time t0 into a uniform-TTL cache with TTL
T, with no Get of it, is found by contains/Get at time tq exactly when
tq - t0 ≤ T; in particular at tq - t0 = T it is still present, because
eviction only removes nodes whose stored expiry is strictly below the
clock. -/
theorem C2_uni_ttl_retention {s : MultiKeyUniTTLValueCache}
    {ids : List Nat} {t0 tq : Nat} {item : KVItem} {k : Nat}
    (h : UniInv s ids t0) (hle : t0 ≤ tq) (hk : k ∈ item.keys)
    (hfree : ∀ k2 ∈ item.keys,
      alistContains (s.CleanUpExpiredLockHeld t0).1.keyValueMap k2
        = false) :
    (((s.Put t0 item true).2.1).containsq tq k).1
      = decide (tq ≤ t0 + s.ttlNanoSec) ∧
    (((s.Put t0 item true).2.1).Get tq k).1
      = if tq ≤ t0 + s.ttlNanoSec then some item else none := by
  obtain ⟨s2, hput, httl2, hexpnid, hitnid, hdataoth, hbindk, hinv2⟩ :=
    uniPut_success h (le_refl t0) true hfree
  have hs2 : (s.Put t0 item true).2.1 = s2 := by rw [hput]
  rw [hs2]
  set nid := s.timeQueue.nextId with hnid
  set R2 := (ids.filter (fun i => ¬(expiryAt s.timeQueue i < t0)))
    ++ [nid] with hR2
  obtain ⟨httl3, hinv3, hdata3, hnext3, hmap3, hev3⟩ :=
    uniCleanup_spec hinv2 hle
  obtain ⟨hwf3, hds3, hsort3, hbnd3, hnd3, hsound3, hcompl3⟩ :=
    hinv3.unpack
  have hitc3 : itemAt (s2.CleanUpExpiredLockHeld tq).1.timeQueue
      = itemAt s2.timeQueue := itemAt_congr hdata3
  by_cases hcase : tq ≤ t0 + s.ttlNanoSec
  · have hnotexp : ¬(expiryAt s2.timeQueue nid < tq) := by
      rw [hexpnid]
      omega
    have hnidR3 : nid ∈ R2.filter
        (fun i => ¬(expiryAt s2.timeQueue i < tq)) :=
      List.mem_filter.mpr ⟨List.mem_append_right _
        (List.mem_singleton_self nid), by simpa using hnotexp⟩
    have hbind3 : alistGet (s2.CleanUpExpiredLockHeld tq).1.keyValueMap k
        = some nid := by
      refine hcompl3 nid hnidR3 k ?_
      rw [hitc3, hitnid]
      exact hk
    constructor
    · show alistContains (s2.CleanUpExpiredLockHeld tq).1.keyValueMap k = _
      rw [alistContains, hbind3, decide_eq_true hcase]
      rfl
    · obtain ⟨s3, hget, _⟩ := (uniGet_spec hinv2 hle).2 nid hbind3
      rw [show (s2.Get tq k).1
        = some (itemAt (s2.CleanUpExpiredLockHeld tq).1.timeQueue nid) by
          rw [hget], hitc3, hitnid, if_pos hcase]
  · have hallexp : ∀ i ∈ R2, expiryAt s2.timeQueue i < tq := by
      intro i hi
      have := hinv2.unpack.2.2.2.1 i hi
      rw [httl2] at this
      omega
    have hnil : R2.filter (fun i => ¬(expiryAt s2.timeQueue i < tq))
        = [] := by
      rw [List.filter_eq_nil_iff]
      intro i hi
      simp [hallexp i hi]
    have hnone : alistGet (s2.CleanUpExpiredLockHeld tq).1.keyValueMap k
        = none := by
      cases halist : alistGet (s2.CleanUpExpiredLockHeld
          tq).1.keyValueMap k with
      | none => rfl
      | some v =>
        have hmem := (hsound3 (k, v) (mem_of_alistGet_eq_some halist)).1
        rw [hnil] at hmem
        exact absurd hmem (List.not_mem_nil _)
    constructor
    · show alistContains (s2.CleanUpExpiredLockHeld tq).1.keyValueMap k = _
      rw [alistContains, hnone, decide_eq_false hcase]
      rfl
    · rw [show (s2.Get tq k).1 = none by
        rw [(uniGet_spec hinv2 hle).1 hnone], if_neg hcase]

/-- C2 counterexample: with TTL = 5 ns, an entry put at t0 = 0 is still
reported present by contains and Get at t = 5, although t - t0 ≥ TTL, so
the claimed "absent for elapsed time ≥ T" fails at the boundary. -/
theorem C2_uni_ttl_boundary_counterexample :
    ((((MultiKeyUniTTLValueCache.mk0 5).Put 0 ⟨1, [10], 0⟩ true
      ).2.1).containsq 5 10).1 = true ∧
    ((((MultiKeyUniTTLValueCache.mk0 5).Put 0 ⟨1, [10], 0⟩ true
      ).2.1).Get 5 10).1 = some ⟨1, [10], 0⟩ ∧
    5 - 0 ≥ 5 := by
  refine ⟨?_, ?_, by omega⟩
  · decide
  · decide

theorem C2_uni_ttl_retention_witness :
    UniInv (MultiKeyUniTTLValueCache.mk0 5) [] 0 ∧ (0 ≤ 3) ∧
    (10 ∈ (⟨1, [10], 0⟩ : KVItem).keys) ∧
    (∀ k2 ∈ (⟨1, [10], 0⟩ : KVItem).keys, alistContains
      ((MultiKeyUniTTLValueCache.mk0 5).CleanUpExpiredLockHeld
        0).1.keyValueMap k2 = false) ∧
    ((((MultiKeyUniTTLValueCache.mk0 5).Put 0 ⟨1, [10], 0⟩ true
      ).2.1).containsq 3 10).1 = decide (3 ≤ 0 + 5) :=
  ⟨by decide, by decide, by decide, by decide,
    (C2_uni_ttl_retention
      ((by decide) : UniInv (MultiKeyUniTTLValueCache.mk0 5) [] 0)
      (by decide) (by decide) (by decide)).1⟩

/-- C4: Get on the uniform cache with a key bound after lazy eviction
re-stamps the found node with now + TTL, moves it to the queue tail and
returns the stored entry; an unbound key yields the absent default with no
error and no further state change; and since every key of an item is bound
to the same node, a Get by one key refreshes the expiry seen through all of
the item keys (the completeness clause of the restored invariant). -/
theorem C4_uni_get_refresh {s : MultiKeyUniTTLValueCache} {ids : List Nat}
    {t now k : Nat} (h : UniInv s ids t) (hle : t ≤ now) :
    (alistGet (s.CleanUpExpiredLockHeld now).1.keyValueMap k = none →
      s.Get now k = (none, (s.CleanUpExpiredLockHeld now).1,
        (s.CleanUpExpiredLockHeld now).2)) ∧
    (∀ nid, alistGet (s.CleanUpExpiredLockHeld now).1.keyValueMap k
        = some nid →
      ∃ s2, s.Get now k =
          (some (itemAt (s.CleanUpExpiredLockHeld now).1.timeQueue nid), s2,
           (s.CleanUpExpiredLockHeld now).2) ∧
        s2.ttlNanoSec = s.ttlNanoSec ∧
        s2.keyValueMap = (s.CleanUpExpiredLockHeld now).1.keyValueMap ∧
        expiryAt s2.timeQueue nid = now + s.ttlNanoSec ∧
        (∀ j, j ≠ nid → (s2.timeQueue.nodes j).data
          = ((s.CleanUpExpiredLockHeld now).1.timeQueue.nodes j).data) ∧
        (∀ j, itemAt s2.timeQueue j
          = itemAt (s.CleanUpExpiredLockHeld now).1.timeQueue j) ∧
        UniInv s2
          (((ids.filter (fun i => ¬(expiryAt s.timeQueue i < now))).erase
            nid) ++ [nid]) now) :=
  uniGet_spec h hle

theorem C4_uni_get_refresh_witness :
    UniInv uniEx1 [2] 0 ∧ ((0 : Nat) ≤ 1) ∧
    (∃ s2, uniEx1.Get 1 10 =
        (some (itemAt (uniEx1.CleanUpExpiredLockHeld 1).1.timeQueue 2), s2,
         (uniEx1.CleanUpExpiredLockHeld 1).2) ∧
      s2.ttlNanoSec = uniEx1.ttlNanoSec ∧
      s2.keyValueMap = (uniEx1.CleanUpExpiredLockHeld 1).1.keyValueMap ∧
      expiryAt s2.timeQueue 2 = 1 + uniEx1.ttlNanoSec ∧
      (∀ j, j ≠ 2 → (s2.timeQueue.nodes j).data
        = ((uniEx1.CleanUpExpiredLockHeld 1).1.timeQueue.nodes j).data) ∧
      (∀ j, itemAt s2.timeQueue j
        = itemAt (uniEx1.CleanUpExpiredLockHeld 1).1.timeQueue j) ∧
      UniInv s2
        ((([2] : List Nat).filter
          (fun i => ¬(expiryAt uniEx1.timeQueue i < 1))).erase 2 ++ [2])
        1) :=
  ⟨by decide, by decide,
    (C4_uni_get_refresh ((by decide) : UniInv uniEx1 [2] 0)
      (by decide)).2 2 (by decide)⟩

/-- C5: the uniform-cache invariant (whose third component is exactly the
nondecreasing order of stored expiries along the queue) holds for the
initial cache and is preserved by Put, Get, CleanUpExpired, len, NumOfKeys,
contains and Terminate, whenever the clock does not decrease between
operations; and under it the lazy-eviction loop terminates exactly the
entries whose stored expiry is strictly below the current time. -/
theorem C5_uni_sorted_invariant :
    (∀ ttl, UniInv (MultiKeyUniTTLValueCache.mk0 ttl) [] 0) ∧
    (∀ s ids t now (item : KVItem) b, UniInv s ids t → t ≤ now →
      ∃ ids2, UniInv (s.Put now item b).2.1 ids2 now) ∧
    (∀ s ids t now k, UniInv s ids t → t ≤ now →
      ∃ ids2, UniInv (s.Get now k).2.1 ids2 now) ∧
    (∀ s ids t now, UniInv s ids t → t ≤ now →
      UniInv (s.CleanUpExpired now).1
        (ids.filter (fun i => ¬(expiryAt s.timeQueue i < now))) now) ∧
    (∀ s ids t now, UniInv s ids t → t ≤ now →
      UniInv (s.lenq now).2.1
        (ids.filter (fun i => ¬(expiryAt s.timeQueue i < now))) now ∧
      UniInv (s.NumOfKeys now).2.1
        (ids.filter (fun i => ¬(expiryAt s.timeQueue i < now))) now) ∧
    (∀ s ids t now k, UniInv s ids t → t ≤ now →
      UniInv (s.containsq now k).2.1
        (ids.filter (fun i => ¬(expiryAt s.timeQueue i < now))) now) ∧
    (∀ s ids t, UniInv s ids t → ∀ u, UniInv (s.Terminate).1 [] u) ∧
    (∀ s ids t now, UniInv s ids t → t ≤ now →
      (s.CleanUpExpiredLockHeld now).2 =
        (ids.filter (fun i => expiryAt s.timeQueue i < now)).map
          (fun i => (itemAt s.timeQueue i).id)) := by
  refine ⟨?_, ?_, ?_, ?_, ?_, ?_, ?_, ?_⟩
  · intro ttl
    refine ⟨WF_init _, ?_, List.Pairwise.nil, ?_, List.nodup_nil, ?_, ?_⟩
    · intro i hi
      exact absurd hi (List.not_mem_nil i)
    · intro i hi
      exact absurd hi (List.not_mem_nil i)
    · intro p hp
      exact absurd hp (List.not_mem_nil p)
    · intro i hi
      exact absurd hi (List.not_mem_nil i)
  · intro s ids t now item b hinv hle
    by_cases hc : ∀ k ∈ item.keys,
        alistContains (s.CleanUpExpiredLockHeld now).1.keyValueMap k
          = false
    · obtain ⟨s2, hput, _, _, _, _, _, hinv2⟩ :=
        uniPut_success hinv hle b hc
      exact ⟨_, by rw [hput]; exact hinv2⟩
    · push_neg at hc
      obtain ⟨k, hk, hck⟩ := hc
      have hck2 : alistContains
          (s.CleanUpExpiredLockHeld now).1.keyValueMap k = true := by
        cases hb : alistContains
            (s.CleanUpExpiredLockHeld now).1.keyValueMap k with
        | false => exact absurd hb hck
        | true => rfl
      have hcol := @uniPut_collision s now item ⟨k, hk, hck2⟩
      cases b with
      | true =>
        refine ⟨ids.filter (fun i => ¬(expiryAt s.timeQueue i < now)), ?_⟩
        rw [hcol.1]
        exact (uniCleanup_spec hinv hle).2.1
      | false =>
        refine ⟨ids.filter (fun i => ¬(expiryAt s.timeQueue i < now)), ?_⟩
        rw [hcol.2]
        exact (uniCleanup_spec hinv hle).2.1
  · intro s ids t now k hinv hle
    cases hbind : alistGet (s.CleanUpExpiredLockHeld now).1.keyValueMap k
      with
    | none =>
      refine ⟨ids.filter (fun i => ¬(expiryAt s.timeQueue i < now)), ?_⟩
      rw [(uniGet_spec hinv hle).1 hbind]
      exact (uniCleanup_spec hinv hle).2.1
    | some nid =>
      obtain ⟨s2, hget, _, _, _, _, _, hinv2⟩ :=
        (uniGet_spec hinv hle).2 nid hbind
      exact ⟨_, by rw [hget]; exact hinv2⟩
  · intro s ids t now hinv hle
    exact (uniCleanup_spec hinv hle).2.1
  · intro s ids t now hinv hle
    exact ⟨(uniCleanup_spec hinv hle).2.1, (uniCleanup_spec hinv hle).2.1⟩
  · intro s ids t now k hinv hle
    exact (uniCleanup_spec hinv hle).2.1
  · intro s ids t hinv u
    exact (uniTerminate_spec hinv).2.2.2.1 u
  · intro s ids t now hinv hle
    exact (uniCleanup_spec hinv hle).2.2.2.2.2

theorem C5_uni_sorted_invariant_witness :
    UniInv (MultiKeyUniTTLValueCache.mk0 5) [] 0 ∧ ((0 : Nat) ≤ 0) ∧
    (∃ ids2, UniInv
      (((MultiKeyUniTTLValueCache.mk0 5).Put 0 ⟨1, [10], 0⟩ true).2.1)
      ids2 0) ∧
    (∀ u, UniInv (uniEx1.Terminate).1 [] u) :=
  ⟨by decide, by decide,
    C5_uni_sorted_invariant.2.1 (MultiKeyUniTTLValueCache.mk0 5) [] 0 0
      ⟨1, [10], 0⟩ true ((by decide) : UniInv
        (MultiKeyUniTTLValueCache.mk0 5) [] 0) (by decide),
    C5_uni_sorted_invariant.2.2.2.2.2.2.1 uniEx1 [2] 0
      ((by decide) : UniInv uniEx1 [2] 0)⟩

/-- The eviction loop of the per-item-TTL cache pops exactly the front run
of expired queue entries, terminating them in order and dropping only
their keys from the lookup table; the queue suffix is returned verbatim. -/
theorem cleanLoopMulti_spec (now : Nat) :
    ∀ (q m : List (Nat × KVItem)),
      (cleanLoopMulti q m now).1 = q.dropWhile (fun p => p.1 < now) ∧
      (cleanLoopMulti q m now).2.2 =
        (q.takeWhile (fun p => p.1 < now)).map (fun p => p.2.id) ∧
      List.Sublist (cleanLoopMulti q m now).2.1 m ∧
      (∀ k, (∀ p ∈ q.takeWhile (fun p => p.1 < now), k ∉ p.2.keys) →
        alistGet (cleanLoopMulti q m now).2.1 k = alistGet m k) := by
  intro q
  induction q with
  | nil => intro m; exact ⟨rfl, rfl, List.Sublist.refl m, fun k _ => rfl⟩
  | cons p rest ih =>
    intro m
    by_cases hlt : p.1 < now
    · have hred : cleanLoopMulti (p :: rest) m now =
          ((cleanLoopMulti rest (RemoveKeysFromLUT m p.2.keys) now).1,
           (cleanLoopMulti rest (RemoveKeysFromLUT m p.2.keys) now).2.1,
           p.2.id :: (cleanLoopMulti rest
            (RemoveKeysFromLUT m p.2.keys) now).2.2) := by
        rw [cleanLoopMulti, if_pos hlt]
      obtain ⟨c1, c2, c3, c4⟩ := ih (RemoveKeysFromLUT m p.2.keys)
      have hpd : decide (p.1 < now) = true := decide_eq_true hlt
      rw [hred, List.dropWhile_cons_of_pos (by exact hpd),
        List.takeWhile_cons_of_pos (by exact hpd)]
      refine ⟨c1, by rw [c2, List.map_cons], ?_, ?_⟩
      · exact c3.trans (RemoveKeysFromLUT_sublist p.2.keys m)
      · intro k hk
        have hkp : k ∉ p.2.keys := hk p (List.mem_cons_self _ _)
        rw [c4 k (fun p2 hp2 => hk p2 (List.mem_cons_of_mem _ hp2)),
          alistGet_RemoveKeysFromLUT_not_mem hkp]
    · have hred : cleanLoopMulti (p :: rest) m now = (p :: rest, m, []) := by
        rw [cleanLoopMulti, if_neg hlt]
      have hpd : decide (p.1 < now) = false := decide_eq_false hlt
      rw [hred, List.dropWhile_cons_of_neg (by rw [hpd]; exact
          Bool.false_ne_true),
        List.takeWhile_cons_of_neg (by rw [hpd]; exact Bool.false_ne_true)]
      exact ⟨rfl, rfl, List.Sublist.refl m, fun k _ => rfl⟩

/-- C7: Get on the per-item-TTL cache performs only the lazy eviction of
already-expired entries and a lookup: the resulting state is exactly the
state after lazy eviction, the surviving queue segment is returned
verbatim (no stored expiry or position changes), only the keys of evicted
items leave the lookup table, and the result is the plain lookup of the
key, found or not, with no error. -/
theorem C7_multi_get_frame (s : MultiKeyMultiTTLValueCache) (now k : Nat) :
    (s.Get now k).2.1 = (s.CleanUpExpiredLocked now).1 ∧
    (s.Get now k).1
      = alistGet (s.CleanUpExpiredLocked now).1.keyValueMap k ∧
    (s.CleanUpExpiredLocked now).1.timeQueue =
      s.timeQueue.dropWhile (fun p => p.1 < now) ∧
    (∀ k2, (∀ p ∈ s.timeQueue.takeWhile (fun p => p.1 < now),
        k2 ∉ p.2.keys) →
      alistGet (s.CleanUpExpiredLocked now).1.keyValueMap k2
        = alistGet s.keyValueMap k2) ∧
    (s.Get now k).2.2 =
      (s.timeQueue.takeWhile (fun p => p.1 < now)).map (fun p => p.2.id) :=
  ⟨rfl, rfl, (cleanLoopMulti_spec now s.timeQueue s.keyValueMap).1,
    (cleanLoopMulti_spec now s.timeQueue s.keyValueMap).2.2.2,
    (cleanLoopMulti_spec now s.timeQueue s.keyValueMap).2.1⟩

/-- Put with a colliding key on the per-item-TTL cache: both modes leave
the state exactly as the lazy eviction left it. -/
theorem multiPut_collision {s : MultiKeyMultiTTLValueCache} {now : Nat}
    {item : KVItem}
    (hcol : ∃ k ∈ item.keys,
      alistContains (s.CleanUpExpiredLocked now).1.keyValueMap k = true) :
    s.Put now item true = (Except.error CacheErr.keyAlreadyExists,
      (s.CleanUpExpiredLocked now).1, (s.CleanUpExpiredLocked now).2) ∧
    s.Put now item false = (Except.ok (),
      (s.CleanUpExpiredLocked now).1, (s.CleanUpExpiredLocked now).2) := by
  have hsome : (item.keys.find? (fun k =>
      alistContains (s.CleanUpExpiredLocked now).1.keyValueMap k)).isSome
      = true := by
    rw [List.find?_isSome]
    obtain ⟨k, hk, hck⟩ := hcol
    exact ⟨k, hk, hck⟩
  obtain ⟨k2, hk2⟩ := Option.isSome_iff_exists.mp hsome
  constructor
  · show (match item.keys.find? (fun k =>
        alistContains (s.CleanUpExpiredLocked now).1.keyValueMap k) with
      | some _ => _
      | none => _) = _
    rw [hk2]
    rfl
  · show (match item.keys.find? (fun k =>
        alistContains (s.CleanUpExpiredLocked now).1.keyValueMap k) with
      | some _ => _
      | none => _) = _
    rw [hk2]
    rfl

/-- C3: on both multi-key caches, a Put whose item has at least one key
already bound (after the shared lazy eviction) raises KeyAlreadyExists in
the default mode and returns normally in ignore mode, and in both modes
the state is exactly the state the lazy eviction produced: no binding is
added or changed and nothing is inserted into the ordering structure. -/
theorem C3_put_collision_no_mutation :
    (∀ (s : MultiKeyUniTTLValueCache) (now : Nat) (item : KVItem),
      (∃ k ∈ item.keys,
        alistContains (s.CleanUpExpiredLockHeld now).1.keyValueMap k
          = true) →
      s.Put now item true = (Except.error CacheErr.keyAlreadyExists,
        (s.CleanUpExpiredLockHeld now).1,
        (s.CleanUpExpiredLockHeld now).2) ∧
      s.Put now item false = (Except.ok (),
        (s.CleanUpExpiredLockHeld now).1,
        (s.CleanUpExpiredLockHeld now).2)) ∧
    (∀ (s : MultiKeyMultiTTLValueCache) (now : Nat) (item : KVItem),
      (∃ k ∈ item.keys,
        alistContains (s.CleanUpExpiredLocked now).1.keyValueMap k
          = true) →
      s.Put now item true = (Except.error CacheErr.keyAlreadyExists,
        (s.CleanUpExpiredLocked now).1, (s.CleanUpExpiredLocked now).2) ∧
      s.Put now item false = (Except.ok (),
        (s.CleanUpExpiredLocked now).1, (s.CleanUpExpiredLocked now).2)) :=
  ⟨fun _ _ _ hcol => uniPut_collision hcol,
   fun _ _ _ hcol => multiPut_collision hcol⟩

theorem C3_put_collision_no_mutation_witness :
    (∃ k ∈ (⟨3, [10], 0⟩ : KVItem).keys,
      alistContains (uniEx1.CleanUpExpiredLockHeld 0).1.keyValueMap k
        = true) ∧
    (∃ k ∈ (⟨3, [1], 5⟩ : KVItem).keys,
      alistContains (mtEx1.CleanUpExpiredLocked 0).1.keyValueMap k
        = true) ∧
    (uniEx1.Put 0 ⟨3, [10], 0⟩ true = (Except.error
        CacheErr.keyAlreadyExists, (uniEx1.CleanUpExpiredLockHeld 0).1,
        (uniEx1.CleanUpExpiredLockHeld 0).2) ∧
      uniEx1.Put 0 ⟨3, [10], 0⟩ false = (Except.ok (),
        (uniEx1.CleanUpExpiredLockHeld 0).1,
        (uniEx1.CleanUpExpiredLockHeld 0).2)) ∧
    (mtEx1.Put 0 ⟨3, [1], 5⟩ true = (Except.error
        CacheErr.keyAlreadyExists, (mtEx1.CleanUpExpiredLocked 0).1,
        (mtEx1.CleanUpExpiredLocked 0).2) ∧
      mtEx1.Put 0 ⟨3, [1], 5⟩ false = (Except.ok (),
        (mtEx1.CleanUpExpiredLocked 0).1,
        (mtEx1.CleanUpExpiredLocked 0).2)) :=
  ⟨by decide, by decide,
    C3_put_collision_no_mutation.1 uniEx1 0 ⟨3, [10], 0⟩ (by decide),
    C3_put_collision_no_mutation.2 mtEx1 0 ⟨3, [1], 5⟩ (by decide)⟩

/-- C1 failing input: two items with disjoint key sets and equal absolute
expiry timestamps. The SortedDict assignment timeQueue[expiry] = item
overwrites the first item queue entry: len() then counts only one of the
two entries although both are still retrievable by their keys, and
Terminate only ever terminates the second item, so the lookup table and
the ordering structure do not agree and the first entry is never
terminated. -/
theorem C1_multi_equal_expiry_bug :
    (mtTie.lenq 0).1 = 1 ∧
    (mtTie.NumOfKeys 0).1 = 2 ∧
    (mtTie.Get 0 1).1 = some ⟨1, [1], 10⟩ ∧
    (mtTie.Get 0 2).1 = some ⟨2, [2], 10⟩ ∧
    (mtTie.Terminate).2 = [2] := by
  refine ⟨?_, ?_, ?_, ?_, ?_⟩ <;> decide

/-- C6 failing input for the per-item-TTL cache: in the equal-expiry state
the first item is currently resident (Get still returns it), yet
Terminate() only invokes Terminate on the second item (event list [2]),
so not every currently-resident entry is terminated, although len() and
NumOfKeys() report 0 afterwards. -/
theorem C6_multi_terminate_misses_entry :
    (mtTie.Get 0 1).1 = some ⟨1, [1], 10⟩ ∧
    (mtTie.Terminate).2 = [2] ∧
    ((mtTie.Terminate).1.lenq 0).1 = 0 ∧
    ((mtTie.Terminate).1.NumOfKeys 0).1 = 0 := by
  refine ⟨?_, ?_, ?_, ?_⟩ <;> decide

/-- The eviction loop of the object pool removes exactly the front
(oldest) run of stale idle instances, in order, terminating each. -/
theorem cleanLoopPool_spec (ttl now : Nat) :
    ∀ (idle : List (Nat × Nat)),
      (cleanLoopPool idle ttl now).1 =
        idle.dropWhile (fun p => p.1 + ttl < now) ∧
      (cleanLoopPool idle ttl now).2 =
        (idle.takeWhile (fun p => p.1 + ttl < now)).map (fun p => p.2) := by
  intro idle
  induction idle with
  | nil => exact ⟨rfl, rfl⟩
  | cons p rest ih =>
    by_cases hlt : p.1 + ttl < now
    · have hred : cleanLoopPool (p :: rest) ttl now =
          ((cleanLoopPool rest ttl now).1,
           p.2 :: (cleanLoopPool rest ttl now).2) := by
        rw [cleanLoopPool, if_pos hlt]
      have hpd : decide (p.1 + ttl < now) = true := decide_eq_true hlt
      rw [hred, List.dropWhile_cons_of_pos (by exact hpd),
        List.takeWhile_cons_of_pos (by exact hpd)]
      exact ⟨ih.1, by rw [ih.2, List.map_cons]⟩
    · have hred : cleanLoopPool (p :: rest) ttl now = (p :: rest, []) := by
        rw [cleanLoopPool, if_neg hlt]
      have hpd : decide (p.1 + ttl < now) = false := decide_eq_false hlt
      rw [hred, List.dropWhile_cons_of_neg (by rw [hpd]; exact
          Bool.false_ne_true),
        List.takeWhile_cons_of_neg (by rw [hpd]; exact Bool.false_ne_true)]
      exact ⟨rfl, rfl⟩

/-- C10 (amended at the TTL boundary): assuming idle stamps nondecreasing
and not in the future, lazy eviction removes exactly the idle instances
idle strictly longer than TTL, always from the oldest end, terminating
each; NumberOfIdle stops counting them; the reuse pop of Get hands out the
newest surviving idle instance without construction; and Get constructs a
fresh instance via the stored factory recipe exactly when the idle store
is empty after eviction. -/
theorem C10_pool_oldest_eviction_newest_reuse {s : ObjFactoryCache}
    {t now : Nat} (h : PoolInv s t) (hle : t ≤ now) :
    PoolSpecConcl s now := by
  have hsort : List.Pairwise
      (fun (p q : Nat × Nat) => p.1 + s.ttl ≤ q.1 + s.ttl) s.idleObjs :=
    List.Pairwise.imp (fun hab => by omega) h.1
  obtain ⟨htake, hdrop⟩ :=
    @takeWhile_lt_eq_filter (Nat × Nat) (fun p => p.1 + s.ttl) now
      s.idleObjs hsort
  obtain ⟨p1, p2⟩ := cleanLoopPool_spec s.ttl now s.idleObjs
  have hidle : (s.CleanUpExpiredLocked now).1.idleObjs =
      s.idleObjs.filter (fun p => ¬(p.1 + s.ttl < now)) := by
    show (cleanLoopPool s.idleObjs s.ttl now).1 = _
    rw [p1, hdrop]
  have hev : (s.CleanUpExpiredLocked now).2 =
      (s.idleObjs.filter (fun p => p.1 + s.ttl < now)).map
        (fun p => p.2) := by
    show (cleanLoopPool s.idleObjs s.ttl now).2 = _
    rw [p2, htake]
  refine ⟨hidle, hev, ?_, ?_, ?_⟩
  · show (s.CleanUpExpiredLocked now).1.idleObjs.length = _
    rw [hidle]
  · intro b p hp
    have hne : (s.CleanUpExpiredLocked now).1.idleObjs ≠ [] := by
      intro hcon
      rw [hcon] at hp
      exact Option.noConfusion hp
    have hlen : ¬((s.CleanUpExpiredLocked now).1.idleObjs.length = 0) := by
      intro hcon
      exact hne (List.length_eq_zero.mp hcon)
    refine ⟨?_, ?_, ?_⟩
    · simp only [ObjFactoryCache.Get]
      rw [if_neg hlen]
      show (((s.CleanUpExpiredLocked now).1.idleObjs.getLast?).getD
        (0, 0)).2 = p.2
      rw [hp]
      rfl
    · simp only [ObjFactoryCache.Get]
      rw [if_neg hlen]
      rfl
    · simp only [ObjFactoryCache.Get]
      rw [if_neg hlen]
  · intro b hnil
    have hlen : (s.CleanUpExpiredLocked now).1.idleObjs.length = 0 := by
      rw [hnil]
      rfl
    constructor
    · simp only [ObjFactoryCache.Get]
      rw [if_pos hlen]
      rfl
    · simp only [ObjFactoryCache.Get]
      rw [if_pos hlen]
      rfl

/-- C10 counterexample: with TTL = 10, an instance put idle at time 0 is
still counted by NumberOfIdle at time 10 and no Terminate happens, so the
claimed eviction of instances untouched for at least TTL fails at exactly
TTL (the eviction condition stamp + ttl < now is strict). -/
theorem C10_pool_boundary_counterexample :
    ((poolEx1.NumberOfIdle 10).1 = 1) ∧
    ((poolEx1.NumberOfIdle 10).2.2 = []) ∧
    10 - 0 ≥ 10 := by
  refine ⟨?_, ?_, by omega⟩ <;> decide

theorem C10_pool_oldest_eviction_newest_reuse_witness :
    PoolInv poolEx1 0 ∧ ((0 : Nat) ≤ 11) ∧ PoolSpecConcl poolEx1 11 :=
  ⟨by decide, by decide,
    C10_pool_oldest_eviction_newest_reuse
      ((by decide) : PoolInv poolEx1 0) (by decide)⟩

end PyCacheLib
